import Mathlib

set_option maxHeartbeats 1000000

/-! Verification development for the time-indexed coordinate-frame transform
graph of `packages/studio-base/src/panels/ThreeDimensionalViz/transforms/`
(`CoordinateFrame.ts`).

Scalars (JS IEEE-754 doubles) are modelled by exact rationals.  All concrete
inputs exercised below stay within the range where double arithmetic is exact,
so on those inputs the model agrees with the source bit-for-bit (in particular
the golden values of `TransformTree.test.ts` are reproduced exactly).  The
external libraries `@foxglove/rostime` and `gl-matrix` that `CoordinateFrame.ts`
imports are embedded from their sources.  The sibling files `Transform.ts` and
`TransformTree.ts` are not available; the corresponding definitions are
modelled from the specification (section 4.2) and are marked as such. -/

/-- Time as in `@foxglove/rostime`: integer seconds and nanoseconds. -/
structure RTime where
  sec : Int
  nsec : Int
deriving DecidableEq

/-- Embeds `fixTime` of `@foxglove/rostime`: normalize the nanosecond field
into `[0, 1e9)`, borrowing from the seconds.  The JS code combines
`Math.floor` division with a sign-adjusted remainder; on integers the net
effect is exactly Euclidean division by `1e9`. -/
def fixTime (sec nsec : Int) : RTime :=
  ⟨sec + nsec.fdiv 1000000000, nsec.emod 1000000000⟩

/-- Embeds `add` of `@foxglove/rostime`. -/
def timeAdd (a b : RTime) : RTime := fixTime (a.sec + b.sec) (a.nsec + b.nsec)

/-- Embeds `subtract` of `@foxglove/rostime` (normalization allows a negative
seconds field; the nanosecond field is always in `[0, 1e9)`). -/
def timeSub (a b : RTime) : RTime := fixTime (a.sec - b.sec) (a.nsec - b.nsec)

/-- Embeds `compare` of `@foxglove/rostime`: seconds first, then nanoseconds. -/
def timeCompare (a b : RTime) : Int :=
  if a.sec ≠ b.sec then a.sec - b.sec else a.nsec - b.nsec

/-- Embeds `isLessThan` of `@foxglove/rostime`. -/
def isLessThan (a b : RTime) : Bool := timeCompare a b < 0

/-- Embeds `areEqual` of `@foxglove/rostime`. -/
def areEqual (a b : RTime) : Bool := a.sec == b.sec && a.nsec == b.nsec

/-- Embeds `toSec` of `@foxglove/rostime` over the exact scalar model. -/
def toSec (t : RTime) : ℚ := (t.sec : ℚ) + (t.nsec : ℚ) / 1000000000

/-- Embeds `percentOf` of `@foxglove/rostime`. -/
def percentOf (start finish target : RTime) : ℚ :=
  toSec (timeSub target start) / toSec (timeSub finish start)

/-- Truncation toward zero, as JS `Math.trunc`. -/
def ratTrunc (q : ℚ) : Int := if q < 0 then ⌈q⌉ else ⌊q⌋

/-- Rounding half up toward positive infinity, as JS `Math.round`. -/
def ratRound (q : ℚ) : Int := ⌊q + 1 / 2⌋

/-- Embeds `fromSec` of `@foxglove/rostime` (truncate to seconds, round the
remainder to nanoseconds, then carry whole seconds with truncating division
as the JS `%` operator does). -/
def fromSec (value : ℚ) : RTime :=
  let s : Int := ratTrunc value
  let ns : Int := ratRound ((value - (s : ℚ)) * 1000000000)
  ⟨s + ns.tdiv 1000000000, ns.tmod 1000000000⟩

/-- Embeds `interpolate` of `@foxglove/rostime`. -/
def timeInterpolate (start finish : RTime) (fraction : ℚ) : RTime :=
  timeAdd start (fromSec (fraction * toSec (timeSub finish start)))

/-- Fuel-based Newton iteration mirroring `Nat.sqrt.iter`; the fuel makes it
reducible by the kernel so that concrete witnesses can be checked by
`decide`. -/
def natSqrtIter (n : ℕ) : ℕ → ℕ → ℕ
  | 0, guess => guess
  | fuel + 1, guess =>
    let next := (guess + n / guess) / 2
    if next < guess then natSqrtIter n fuel next else guess

/-- Kernel-reducible integer square root, equal to `Nat.sqrt`. -/
def natSqrt (n : ℕ) : ℕ :=
  if n ≤ 1 then n else natSqrtIter n n (n / 2)

theorem natSqrtIter_eq (n : ℕ) :
    ∀ fuel guess, guess ≤ fuel → natSqrtIter n fuel guess = Nat.sqrt.iter n guess := by
  intro fuel
  induction fuel with
  | zero =>
    intro guess hg
    have hz : guess = 0 := Nat.le_zero.mp hg
    subst hz
    rw [Nat.sqrt.iter]
    simp [natSqrtIter]
  | succ m ih =>
    intro guess hg
    rw [Nat.sqrt.iter]
    by_cases hlt : (guess + n / guess) / 2 < guess
    · simp only [natSqrtIter, hlt, if_true, dif_pos hlt]
      exact ih _ (by omega)
    · simp [natSqrtIter, hlt]

theorem natSqrt_eq (n : ℕ) : natSqrt n = Nat.sqrt n := by
  unfold natSqrt Nat.sqrt
  by_cases h : n ≤ 1
  · simp [h]
  · simp only [h, if_false]
    exact natSqrtIter_eq n n (n / 2) (Nat.div_le_self n 2)

/-- Exact model of `Math.sqrt` on the rationals: exact on perfect squares of
rationals (numerator and denominator of the reduced form both perfect integer
squares), which covers every square root taken by the theorems below. -/
def ratSqrt (q : ℚ) : ℚ := (natSqrt q.num.toNat : ℚ) / (natSqrt q.den : ℚ)

theorem ratSqrt_sq (a : ℚ) (h : 0 ≤ a) : ratSqrt (a * a) = a := by
  unfold ratSqrt
  rw [natSqrt_eq, natSqrt_eq]
  have hnn : (0 : Int) ≤ a.num := Rat.num_nonneg.mpr h
  have hnum : (a * a).num.toNat = a.num.toNat * a.num.toNat := by
    rw [Rat.mul_self_num]
    rcases Int.eq_ofNat_of_zero_le hnn with ⟨n, hn⟩
    rw [hn, ← Int.natCast_mul]
    simp only [Int.toNat_natCast]
  have hden : (a * a).den = a.den * a.den := Rat.mul_self_den a
  rw [hnum, hden, Nat.sqrt_eq, Nat.sqrt_eq]
  have hcast : ((a.num.toNat : ℚ)) = (a.num : ℚ) := by
    exact_mod_cast Int.toNat_of_nonneg hnn
  rw [hcast, Rat.num_div_den]

theorem ratSqrt_one : ratSqrt 1 = 1 := by
  have := ratSqrt_sq 1 (by norm_num)
  simpa using this

theorem ratSqrt_four : ratSqrt 4 = 2 := by
  have := ratSqrt_sq 2 (by norm_num)
  norm_num at this
  exact this

/-- Three-component vector over the exact scalar model. -/
structure Vec3 where
  x : ℚ
  y : ℚ
  z : ℚ
deriving DecidableEq

/-- Quaternion over the exact scalar model, convention x, y, z, w. -/
structure Quat where
  x : ℚ
  y : ℚ
  z : ℚ
  w : ℚ
deriving DecidableEq

/-- Pose as exchanged with callers: position and orientation. -/
structure Pose where
  position : Vec3
  orientation : Quat
deriving DecidableEq

def vec3Zero : Vec3 := ⟨0, 0, 0⟩

def quatIdentity : Quat := ⟨0, 0, 0, 1⟩

/-- Pose produced by `emptyPose()` in the source. -/
def emptyPose : Pose := ⟨vec3Zero, quatIdentity⟩

/-- Squared Euclidean norm of a quaternion. -/
def quatNormSq (q : Quat) : ℚ := q.x * q.x + q.y * q.y + q.z * q.z + q.w * q.w

/-- Embeds `quat.normalize` of gl-matrix (a zero quaternion normalizes to
zero, matching the JS code where the reciprocal length stays `0`). -/
def quatNormalize (q : Quat) : Quat :=
  let len := quatNormSq q
  if 0 < len then
    let il := 1 / ratSqrt len
    ⟨q.x * il, q.y * il, q.z * il, q.w * il⟩
  else ⟨0, 0, 0, 0⟩

theorem quatNormalize_unit (q : Quat) (h : quatNormSq q = 1) : quatNormalize q = q := by
  unfold quatNormalize
  rw [h]
  simp [ratSqrt_one]

/-- Embeds `vec3.lerp` of gl-matrix: componentwise linear interpolation. -/
def vec3Lerp (a b : Vec3) (t : ℚ) : Vec3 :=
  ⟨a.x + t * (b.x - a.x), a.y + t * (b.y - a.y), a.z + t * (b.z - a.z)⟩

/-- Modelled from the spec: spherical interpolation of rotation quaternions
(section 4.2; the implementing file `Transform.ts` is not under `src/`).
The shortest-path sign flip on the second argument follows `quat.slerp` of
gl-matrix.  Over the exact rational scalar field the transcendental weights
`sin((1-t)a)/sin(a)` of the wide-angle branch are not representable; the
interpolation weights are modelled as the linear weights `(1-t, t)`, which is
exactly what `quat.slerp` uses in its nearly-parallel branch - the only branch
exercised exactly by the theorems below. -/
def quatSlerp (a b : Quat) (t : ℚ) : Quat :=
  let cosom := a.x * b.x + a.y * b.y + a.z * b.z + a.w * b.w
  let b' : Quat := if cosom < 0 then ⟨-b.x, -b.y, -b.z, -b.w⟩ else b
  let s0 := 1 - t
  let s1 := t
  ⟨s0 * a.x + s1 * b'.x, s0 * a.y + s1 * b'.y, s0 * a.z + s1 * b'.z,
   s0 * a.w + s1 * b'.w⟩

/-- Column-major 4x4 matrix, entries indexed as in gl-matrix `mat4`. -/
structure Mat4 where
  m0 : ℚ
  m1 : ℚ
  m2 : ℚ
  m3 : ℚ
  m4 : ℚ
  m5 : ℚ
  m6 : ℚ
  m7 : ℚ
  m8 : ℚ
  m9 : ℚ
  m10 : ℚ
  m11 : ℚ
  m12 : ℚ
  m13 : ℚ
  m14 : ℚ
  m15 : ℚ
deriving DecidableEq

/-- Embeds `mat4.identity` / `mat4Identity()` of `geometry.ts`. -/
def mat4Identity : Mat4 :=
  ⟨1, 0, 0, 0, 0, 1, 0, 0, 0, 0, 1, 0, 0, 0, 0, 1⟩

/-- Embeds `mat4.multiply(out, a, b)` of gl-matrix: column `c` of the result is
`a` applied to column `c` of `b`. -/
def mat4Multiply (a b : Mat4) : Mat4 :=
  ⟨b.m0 * a.m0 + b.m1 * a.m4 + b.m2 * a.m8 + b.m3 * a.m12,
   b.m0 * a.m1 + b.m1 * a.m5 + b.m2 * a.m9 + b.m3 * a.m13,
   b.m0 * a.m2 + b.m1 * a.m6 + b.m2 * a.m10 + b.m3 * a.m14,
   b.m0 * a.m3 + b.m1 * a.m7 + b.m2 * a.m11 + b.m3 * a.m15,
   b.m4 * a.m0 + b.m5 * a.m4 + b.m6 * a.m8 + b.m7 * a.m12,
   b.m4 * a.m1 + b.m5 * a.m5 + b.m6 * a.m9 + b.m7 * a.m13,
   b.m4 * a.m2 + b.m5 * a.m6 + b.m6 * a.m10 + b.m7 * a.m14,
   b.m4 * a.m3 + b.m5 * a.m7 + b.m6 * a.m11 + b.m7 * a.m15,
   b.m8 * a.m0 + b.m9 * a.m4 + b.m10 * a.m8 + b.m11 * a.m12,
   b.m8 * a.m1 + b.m9 * a.m5 + b.m10 * a.m9 + b.m11 * a.m13,
   b.m8 * a.m2 + b.m9 * a.m6 + b.m10 * a.m10 + b.m11 * a.m14,
   b.m8 * a.m3 + b.m9 * a.m7 + b.m10 * a.m11 + b.m11 * a.m15,
   b.m12 * a.m0 + b.m13 * a.m4 + b.m14 * a.m8 + b.m15 * a.m12,
   b.m12 * a.m1 + b.m13 * a.m5 + b.m14 * a.m9 + b.m15 * a.m13,
   b.m12 * a.m2 + b.m13 * a.m6 + b.m14 * a.m10 + b.m15 * a.m14,
   b.m12 * a.m3 + b.m13 * a.m7 + b.m14 * a.m11 + b.m15 * a.m15⟩

/-- Embeds `mat4.transpose` of gl-matrix. -/
def mat4Transpose (a : Mat4) : Mat4 :=
  ⟨a.m0, a.m4, a.m8, a.m12, a.m1, a.m5, a.m9, a.m13,
   a.m2, a.m6, a.m10, a.m14, a.m3, a.m7, a.m11, a.m15⟩

/-- Embeds `mat4.fromRotationTranslation` of gl-matrix. -/
def fromRotationTranslation (q : Quat) (v : Vec3) : Mat4 :=
  let x2 := q.x + q.x
  let y2 := q.y + q.y
  let z2 := q.z + q.z
  let xx := q.x * x2
  let xy := q.x * y2
  let xz := q.x * z2
  let yy := q.y * y2
  let yz := q.y * z2
  let zz := q.z * z2
  let wx := q.w * x2
  let wy := q.w * y2
  let wz := q.w * z2
  ⟨1 - (yy + zz), xy + wz, xz - wy, 0,
   xy - wz, 1 - (xx + zz), yz + wx, 0,
   xz + wy, yz - wx, 1 - (xx + yy), 0,
   v.x, v.y, v.z, 1⟩

/-- Embeds `mat4.getTranslation` of gl-matrix. -/
def getTranslation (m : Mat4) : Vec3 := ⟨m.m12, m.m13, m.m14⟩

/-- Quaternion extraction from a matrix whose columns have already been
normalized; the branch structure is that of `mat4.getRotation` of gl-matrix. -/
def getRotationScaled (sm11 sm12 sm13 sm21 sm22 sm23 sm31 sm32 sm33 : ℚ) : Quat :=
  let trace := sm11 + sm22 + sm33
  if 0 < trace then
    let s := ratSqrt (trace + 1) * 2
    ⟨(sm23 - sm32) / s, (sm31 - sm13) / s, (sm12 - sm21) / s, 1 / 4 * s⟩
  else if sm22 < sm11 ∧ sm33 < sm11 then
    let s := ratSqrt (1 + sm11 - sm22 - sm33) * 2
    ⟨1 / 4 * s, (sm12 + sm21) / s, (sm31 + sm13) / s, (sm23 - sm32) / s⟩
  else if sm33 < sm22 then
    let s := ratSqrt (1 + sm22 - sm11 - sm33) * 2
    ⟨(sm12 + sm21) / s, 1 / 4 * s, (sm23 + sm32) / s, (sm31 - sm13) / s⟩
  else
    let s := ratSqrt (1 + sm33 - sm11 - sm22) * 2
    ⟨(sm31 + sm13) / s, (sm23 + sm32) / s, 1 / 4 * s, (sm12 - sm21) / s⟩

/-- Embeds `mat4.getRotation` of gl-matrix: each column of the upper-left 3x3
block is normalized by its length (`mat4.getScaling`), then a quaternion is
extracted by the trace/major-diagonal case split. -/
def getRotationQ (m : Mat4) : Quat :=
  let is1 := 1 / ratSqrt (m.m0 * m.m0 + m.m1 * m.m1 + m.m2 * m.m2)
  let is2 := 1 / ratSqrt (m.m4 * m.m4 + m.m5 * m.m5 + m.m6 * m.m6)
  let is3 := 1 / ratSqrt (m.m8 * m.m8 + m.m9 * m.m9 + m.m10 * m.m10)
  getRotationScaled (m.m0 * is1) (m.m1 * is1) (m.m2 * is1)
    (m.m4 * is2) (m.m5 * is2) (m.m6 * is2)
    (m.m8 * is3) (m.m9 * is3) (m.m10 * is3)

/-- Modelled from the spec: the `RigidTransform` value type of section 2 and
section 4.2 (the implementing file `Transform.ts` is not under `src/`):
a translation and a rotation quaternion, treated as normalized on
construction, convertible to and from a pose and a 4x4 homogeneous matrix. -/
structure Transform where
  position : Vec3
  rotation : Quat
deriving DecidableEq

/-- Modelled from the spec: construction normalizes the rotation. -/
def Transform.create (p : Vec3) (q : Quat) : Transform := ⟨p, quatNormalize q⟩

/-- Modelled from the spec: `Transform.Identity()`. -/
def Transform.identityTf : Transform := ⟨vec3Zero, quatIdentity⟩

/-- Modelled from the spec: the on-demand column-major homogeneous matrix of a
transform (`toMatrix` of section 4.2), via gl-matrix
`fromRotationTranslation`. -/
def Transform.matrix (tf : Transform) : Mat4 :=
  fromRotationTranslation tf.rotation tf.position

/-- Modelled from the spec: `setPose` converts the public pose value into a
transform (construction-normalized, section 3). -/
def Transform.setPose (p : Pose) : Transform :=
  Transform.create p.position p.orientation

/-- Modelled from the spec: `fromMatrix` / `setMatrix` recovers translation
and rotation from a homogeneous matrix via gl-matrix `getTranslation` and
`getRotation`. -/
def Transform.setMatrix (m : Mat4) : Transform :=
  ⟨getTranslation m, getRotationQ m⟩

/-- Modelled from the spec: `toPose` converts a transform back into a pose. -/
def Transform.toPose (tf : Transform) : Pose := ⟨tf.position, tf.rotation⟩

/-- Modelled from the spec: `Transform.Interpolate` (section 4.2) - linear
componentwise interpolation of the translation, spherical interpolation of the
rotation, renormalized to guard against drift. -/
def Transform.Interpolate (a b : Transform) (t : ℚ) : Transform :=
  Transform.create (vec3Lerp a.position b.position t)
    (quatSlerp a.rotation b.rotation t)

theorem sanity_fixture_rotation :
    getRotationQ (fromRotationTranslation ⟨0, 0, 1, 0⟩ ⟨10, 20, 30⟩) = ⟨0, 0, 1, 0⟩ := by
  norm_num [getRotationQ, fromRotationTranslation, getRotationScaled,
    ratSqrt_one, ratSqrt_four]

/-- Entry of a frame's transform history (`TimeAndTransform` in the source). -/
abbrev TimeAndTransform := RTime × Transform

/-- Embeds `isDiffWithinDelta` of `CoordinateFrame.ts`: subtract, take the
absolute value of the seconds field only, and compare against the delta. -/
def isDiffWithinDelta (timeA timeB delta : RTime) : Bool :=
  let diff := timeSub timeA timeB
  timeCompare ⟨if diff.sec < 0 then -diff.sec else diff.sec, diff.nsec⟩ delta ≤ 0

/-- Embeds `AVLTree.findLessThanOrEqual` on the sorted-association-list model
of the tree: the greatest entry with key at most the given time. -/
def findLessThanOrEqual : List TimeAndTransform → RTime → Option TimeAndTransform
  | [], _ => none
  | e :: rest, t =>
    if timeCompare e.1 t ≤ 0 then
      match findLessThanOrEqual rest t with
      | some e' => some e'
      | none => some e
    else none

/-- Embeds `AVLTree.findGreaterThan` on the sorted-association-list model:
the least entry with key strictly greater than the given time. -/
def findGreaterThan : List TimeAndTransform → RTime → Option TimeAndTransform
  | [], _ => none
  | e :: rest, t => if 0 < timeCompare e.1 t then some e else findGreaterThan rest t

/-- Embeds `AVLTree.set` on the sorted-association-list model: insert keeping
the order, replacing an entry whose key is already present. -/
def insertEntry : List TimeAndTransform → RTime → Transform → List TimeAndTransform
  | [], t, tf => [(t, tf)]
  | e :: rest, t, tf =>
    if timeCompare t e.1 < 0 then (t, tf) :: e :: rest
    else if timeCompare t e.1 = 0 then (t, tf) :: rest
    else e :: insertEntry rest t tf

/-- Embeds the eviction loop of `CoordinateFrame.addTransform`: repeatedly
`shift()` (drop the oldest entry) while more than one entry remains and the
oldest key is strictly below the cutoff. -/
def evictOld (cutoff : RTime) : List TimeAndTransform → List TimeAndTransform
  | [] => []
  | [e] => [e]
  | e :: f :: rest =>
    if isLessThan e.1 cutoff then evictOld cutoff (f :: rest) else e :: f :: rest

/-- Embeds `CoordinateFrame.addTransform` at the history level: overwrite or
insert, then evict entries older than `newest - maxStorageTime` from the
oldest end. -/
def addTransformHistory (maxStorageTime : RTime) (h : List TimeAndTransform)
    (time : RTime) (tf : Transform) : List TimeAndTransform :=
  let h' := insertEntry h time tf
  let endTime := ((h'.getLast?).map Prod.fst).getD time
  evictOld (timeSub endTime maxStorageTime) h'

/-- Embeds `CoordinateFrame.findClosestTransforms`. -/
def findClosestTransforms (h : List TimeAndTransform) (time maxDelta : RTime) :
    Option (TimeAndTransform × TimeAndTransform) :=
  match h with
  | [] => none
  | [e] => if isDiffWithinDelta time e.1 maxDelta then some (e, e) else none
  | e0 :: e1 :: rest =>
    match findLessThanOrEqual (e0 :: e1 :: rest) time with
    | none =>
      if isDiffWithinDelta time e0.1 maxDelta then some (e0, e0) else none
    | some lte =>
      if areEqual lte.1 time then some (lte, lte)
      else
        match findGreaterThan (e0 :: e1 :: rest) time with
        | none =>
          match (e0 :: e1 :: rest).getLast? with
          | none => none
          | some last => if isDiffWithinDelta time last.1 maxDelta then some (last, last) else none
        | some gt => some (lte, gt)

/-- CoordinateFrame state: id, optional parent (the source holds an object
reference; a `TransformTree` holds exactly one frame object per id, so the
reference is modelled by the parent frame's id), the transform history, and
the retention window. -/
structure Frame where
  id : String
  parent : Option String
  history : List TimeAndTransform
  maxStorageTime : RTime
deriving DecidableEq

/-- Default retention window (`DEFAULT_MAX_STORAGE_TIME`, 10 seconds). -/
def defaultMaxStorageTime : RTime := ⟨10, 0⟩

/-- Embeds `CoordinateFrame.addTransform`. -/
def Frame.addTransform (f : Frame) (time : RTime) (tf : Transform) : Frame :=
  { f with history := addTransformHistory f.maxStorageTime f.history time tf }

/-- Embeds `CoordinateFrame.setParent`: throwing is modelled by the error case
of `Except`; the frame value is unchanged in that case (the source throws
before any assignment). -/
def Frame.setParent (f : Frame) (parentId : String) : Except String Frame :=
  if f.parent.isSome && f.parent != some parentId then
    Except.error "Cannot reparent frame"
  else Except.ok { f with parent := some parentId }

/-- The frames of one `TransformTree`. -/
abbrev FrameGraph := List Frame

/-- Lookup of a frame by id (object identity in the source is id equality
because a `TransformTree` holds one frame object per id). -/
def findFrame (g : FrameGraph) (fid : String) : Option Frame :=
  g.find? (fun f => f.id == fid)

/-- Parent-chain walk behind `CoordinateFrame.findAncestor`; the fuel is a
modelling artifact covering graphs whose parent chains cycle (on which the
source would not terminate) and is ample on well-formed graphs. -/
def findAncestorLoop (g : FrameGraph) (targetId : String) :
    ℕ → Option String → Option Frame
  | _, none => none
  | 0, some _ => none
  | fuel + 1, some pid =>
    match findFrame g pid with
    | none => none
    | some pf =>
      if pf.id == targetId then some pf else findAncestorLoop g targetId fuel pf.parent

/-- Embeds `CoordinateFrame.findAncestor`: walk up the parent chain starting
at the parent (the frame itself never matches). -/
def Frame.findAncestor (g : FrameGraph) (f : Frame) (targetId : String) : Option Frame :=
  findAncestorLoop g targetId (g.length + 1) f.parent

/-- Embeds `CoordinateFrame.Interpolate` (returning the pair the source writes
into `outTime` and `outTf`). -/
def CoordinateFrame.Interpolate (lower upper : TimeAndTransform) (time : RTime) :
    RTime × Transform :=
  if areEqual lower.1 upper.1 then (upper.1, upper.2)
  else
    let fraction := max 0 (min 1 (percentOf lower.1 upper.1 time))
    (timeInterpolate lower.1 upper.1 fraction,
     Transform.Interpolate lower.2 upper.2 fraction)

/-- Result of `CoordinateFrame.GetTransformMatrix`: success with the matrix,
the soft failure `return false`, the thrown "is not a parent of" error, or
divergence (`spin`, a modelling artifact for cyclic or dangling parent chains
on which the source loop would not terminate). -/
inductive GTMRes where
  | ok (m : Mat4)
  | fail
  | err
  | spin
deriving DecidableEq

/-- Loop of `CoordinateFrame.GetTransformMatrix`: walk from the child frame
toward `parentId`, look up the closest bracket at each hop, interpolate,
left-multiply the hop matrix into the accumulator; soft-fail if a bracket
lookup fails, throw if a parentless frame is reached first. -/
def gtmLoop (g : FrameGraph) (parentId : String) (time maxDelta : RTime) :
    ℕ → Frame → Mat4 → GTMRes
  | fuel, cur, acc =>
    if cur.id == parentId then .ok acc
    else
      match findClosestTransforms cur.history time maxDelta with
      | none => .fail
      | some (lo, hi) =>
        let tf := (CoordinateFrame.Interpolate lo hi time).2
        let acc' := mat4Multiply tf.matrix acc
        match cur.parent with
        | none => .err
        | some pid =>
          match findFrame g pid with
          | none => .spin
          | some pf =>
            match fuel with
            | 0 => .spin
            | n + 1 => gtmLoop g parentId time maxDelta n pf acc'

/-- Embeds `CoordinateFrame.GetTransformMatrix`. -/
def CoordinateFrame.GetTransformMatrix (g : FrameGraph) (parentId : String)
    (child : Frame) (time maxDelta : RTime) : GTMRes :=
  gtmLoop g parentId time maxDelta g.length child mat4Identity

/-- Outcome of `CoordinateFrame.apply` / `CoordinateFrame.Apply` together with
the final contents of the caller-supplied output pose: `ok` is a defined
return value, `fail` is the soft failure (`false` / `undefined`), `err` is the
thrown error propagating out of `GetTransformMatrix`, and `spin` is the
divergence modelling artifact. -/
inductive ApplyStatus where
  | ok
  | fail
  | err
  | spin
deriving DecidableEq

/-- Embeds the inversion block of `CoordinateFrame.Apply`: remove the
translation, transpose, then set the negated translation. -/
def rigidInvert (m : Mat4) : Mat4 :=
  let x := m.m12
  let y := m.m13
  let z := m.m14
  let mt := mat4Transpose { m with m12 := 0, m13 := 0, m14 := 0 }
  { mt with m12 := -x, m13 := -y, m14 := -z }

/-- Embeds the static `CoordinateFrame.Apply`: compute the child-to-parent
matrix, optionally invert it, and push the input pose through it.  On a
non-`ok` outcome the output pose is untouched (second component). -/
def CoordinateFrame.Apply (g : FrameGraph) (parentId : String) (child : Frame)
    (invert : Bool) (outP input : Pose) (time maxDelta : RTime) : ApplyStatus × Pose :=
  match CoordinateFrame.GetTransformMatrix g parentId child time maxDelta with
  | .ok m =>
    let mi := if invert then rigidInvert m else m
    let tfIn := Transform.setPose input
    let m2 := mat4Multiply mi tfIn.matrix
    ((.ok : ApplyStatus), (Transform.setMatrix m2).toPose)
  | .fail => (.fail, outP)
  | .err => (.err, outP)
  | .spin => (.spin, outP)

/-- Common-parent search loop of `CoordinateFrame.apply` (its final `while`
loop): walk up from the source frame until a frame is found that is an
ancestor of the destination, then apply source-to-common-parent into the
output pose and common-parent-to-destination (inverted) on top of it. -/
def applyCommonParentLoop (g : FrameGraph) (dst src : Frame) (outP input : Pose)
    (time maxDelta : RTime) : ℕ → Frame → ApplyStatus × Pose
  | fuel, cur =>
    match Frame.findAncestor g dst cur.id with
    | some commonParent =>
      let r1 := CoordinateFrame.Apply g commonParent.id src false outP input time maxDelta
      match r1.1 with
      | .ok => CoordinateFrame.Apply g commonParent.id dst true r1.2 r1.2 time maxDelta
      | s => (s, r1.2)
    | none =>
      match cur.parent with
      | none => (.fail, outP)
      | some pid =>
        match findFrame g pid with
        | none => (.spin, outP)
        | some pf =>
          match fuel with
          | 0 => (.spin, outP)
          | n + 1 => applyCommonParentLoop g dst src outP input time maxDelta n pf

/-- Embeds `CoordinateFrame.apply` (called on the destination frame `dst` with
source frame `src`): identity when the frames coincide, otherwise the
ancestor cases, otherwise the common-parent search. -/
def CoordinateFrame.apply (g : FrameGraph) (dst src : Frame) (outP input : Pose)
    (time maxDelta : RTime) : ApplyStatus × Pose :=
  if src.id == dst.id then ((.ok : ApplyStatus), ⟨input.position, input.orientation⟩)
  else if (Frame.findAncestor g src dst.id).isSome then
    CoordinateFrame.Apply g dst.id src false outP input time maxDelta
  else if (Frame.findAncestor g dst src.id).isSome then
    CoordinateFrame.Apply g src.id dst true outP input time maxDelta
  else
    applyCommonParentLoop g dst src outP input time maxDelta (g.length + 1) src

/-- Bounded parent-chain walk used to state well-formedness: does the chain
starting at the given parent link reach a parentless frame within the given
number of steps, passing only through frames present in the graph? -/
def reachesRootAux (g : FrameGraph) : ℕ → Option String → Bool
  | _, none => true
  | 0, some _ => false
  | fuel + 1, some pid =>
    match findFrame g pid with
    | none => false
    | some pf => reachesRootAux g fuel pf.parent

/-- Well-formedness of a graph, holding for every graph a `TransformTree`
can build: one frame per id, parent chains ending at a root (acyclic, no
dangling ids), histories strictly sorted by time (the AVL-tree invariant). -/
def WFGraph (g : FrameGraph) : Prop :=
  (g.map Frame.id).Nodup ∧
  (∀ f ∈ g, reachesRootAux g g.length f.parent = true) ∧
  (∀ f ∈ g, List.Pairwise (fun a b => isLessThan a.1 b.1 = true) f.history)

/-- Transform `odom_T_baseLink` of the test fixture after
`setPosition([1, 2, 3])`. -/
def tfOdomBase : Transform := ⟨⟨1, 2, 3⟩, quatIdentity⟩

/-- Transform `map_T_odom` of the test fixture after `setPosition([10, 20, 30])`
and `setRotation([0, 0, 1, 0])` (180 degrees about Z). -/
def tfMapOdom : Transform := ⟨⟨10, 20, 30⟩, ⟨0, 0, 1, 0⟩⟩

def timeZero : RTime := ⟨0, 0⟩

def oneSecond : RTime := ⟨1, 0⟩

/-- Frame `base_link` of the fixture: child of `odom` with one history entry
at time zero. -/
def baseLinkFrame : Frame := ⟨"base_link", some "odom", [(timeZero, tfOdomBase)], defaultMaxStorageTime⟩

/-- Frame `odom` of the fixture: child of `map` with one history entry at
time zero. -/
def odomFrame : Frame := ⟨"odom", some "map", [(timeZero, tfMapOdom)], defaultMaxStorageTime⟩

/-- Frame `map` of the fixture: the root. -/
def mapFrame : Frame := ⟨"map", none, [], defaultMaxStorageTime⟩

/-- The three-frame graph of the `point-in-time transformation` fixture. -/
def fixtureGraph : FrameGraph := [baseLinkFrame, odomFrame, mapFrame]


/-- C1: multi-hop composition concrete scenario.  With edges
`base_link -> odom` and `odom -> map` inserted at time 0, `odom_T_baseLink`
translation `(1, 2, 3)`, and `map_T_odom` translation `(10, 20, 30)` with
rotation `(0, 0, 1, 0)` (180 degrees about Z), applying the identity pose
from `base_link` into `map` at time 0 succeeds with position `(9, 18, 33)`
and orientation `(0, 0, 1, 0)`, and the inverse query succeeds with position
`(-9, -18, -33)` and the same orientation. -/
theorem fixture_multi_hop_queries :
    CoordinateFrame.apply fixtureGraph mapFrame baseLinkFrame emptyPose emptyPose
      timeZero oneSecond = (.ok, ⟨⟨9, 18, 33⟩, ⟨0, 0, 1, 0⟩⟩) ∧
    CoordinateFrame.apply fixtureGraph baseLinkFrame mapFrame emptyPose emptyPose
      timeZero oneSecond = (.ok, ⟨⟨-9, -18, -33⟩, ⟨0, 0, 1, 0⟩⟩) := by
  constructor <;>
    norm_num +decide [CoordinateFrame.apply, CoordinateFrame.Apply,
      CoordinateFrame.GetTransformMatrix, gtmLoop, CoordinateFrame.Interpolate,
      Frame.findAncestor, findAncestorLoop, findFrame, List.find?,
      findClosestTransforms, isDiffWithinDelta, areEqual, timeSub, timeCompare,
      fixTime, isLessThan, fixtureGraph, baseLinkFrame, odomFrame, mapFrame,
      tfOdomBase, tfMapOdom, timeZero, oneSecond, defaultMaxStorageTime,
      emptyPose, vec3Zero, quatIdentity, Transform.setPose, Transform.create,
      quatNormalize, quatNormSq, ratSqrt_one, ratSqrt_four, Transform.matrix,
      fromRotationTranslation, mat4Multiply, mat4Identity, Transform.setMatrix,
      getTranslation, getRotationQ, getRotationScaled, Transform.toPose,
      rigidInvert, mat4Transpose]

/-- C8: composing a pose from a frame into the same frame always succeeds and
copies the input pose, whatever the graph, history, or parent links. -/
theorem apply_same_frame_identity (g : FrameGraph) (x : Frame) (outP input : Pose)
    (t d : RTime) :
    CoordinateFrame.apply g x x outP input t d = (.ok, input) := by
  unfold CoordinateFrame.apply
  simp

/-- C10: `GetTransformMatrix` with the same parent and child frame returns
`true` with the identity matrix, without consulting any history or parent
link. -/
theorem getTransformMatrix_same_frame_identity (g : FrameGraph) (f : Frame)
    (t d : RTime) :
    CoordinateFrame.GetTransformMatrix g f.id f t d = .ok mat4Identity := by
  unfold CoordinateFrame.GetTransformMatrix
  rw [gtmLoop]
  simp

/-- Specification-side restatement of the interpolation contract of section
4.1/4.2: equal timestamps copy the upper entry verbatim (no fraction is ever
computed, so the equal-times case cannot produce the NaN of a zero-length
division); otherwise the fraction of the query time between the entries,
clamped to the unit interval, drives the time interpolation, a componentwise
linear interpolation of the translation, and the spherical interpolation of
the rotation. -/
def interpolateContract (lower upper : TimeAndTransform) (time : RTime) :
    RTime × Transform :=
  if areEqual lower.1 upper.1 then (upper.1, upper.2)
  else
    let f := max 0 (min 1 (percentOf lower.1 upper.1 time))
    (timeInterpolate lower.1 upper.1 f,
     Transform.create
       ⟨lower.2.position.x + f * (upper.2.position.x - lower.2.position.x),
        lower.2.position.y + f * (upper.2.position.y - lower.2.position.y),
        lower.2.position.z + f * (upper.2.position.z - lower.2.position.z)⟩
       (quatSlerp lower.2.rotation upper.2.rotation f))

/-- C7: `CoordinateFrame.Interpolate` coincides with the interpolation
contract: verbatim copy of the upper entry when the two timestamps are equal
(never a fraction, hence never NaN), and otherwise the clamped-fraction
interpolation of time, translation (componentwise linear) and rotation
(spherical). -/
theorem interpolate_matches_contract (l u : TimeAndTransform) (t : RTime) :
    CoordinateFrame.Interpolate l u t = interpolateContract l u t := by
  unfold CoordinateFrame.Interpolate interpolateContract Transform.Interpolate vec3Lerp
  rfl

/-- C5: once a frame's parent is set, `setParent` with a different parent
fails with the reparenting error and produces no new state (in particular the
parent link and the history are unchanged); `setParent` with the same parent
is a no-op returning the frame unchanged; `setParent` on a parentless frame
sets the parent and touches nothing else. -/
theorem setParent_reparenting (f : Frame) (p q : String) :
    (f.parent = some p → q ≠ p → f.setParent q = Except.error "Cannot reparent frame") ∧
    (f.parent = some p → f.setParent p = Except.ok f) ∧
    (f.parent = none →
      f.setParent q = Except.ok { f with parent := some q } ∧
      ({ f with parent := some q } : Frame).history = f.history ∧
      ({ f with parent := some q } : Frame).id = f.id) := by
  refine ⟨?_, ?_, ?_⟩
  · intro hp hq
    unfold Frame.setParent
    rw [hp]
    simp [Ne.symm hq]
  · intro hp
    unfold Frame.setParent
    rw [hp]
    simp
    cases f
    simp_all
  · intro hp
    unfold Frame.setParent
    rw [hp]
    simp

theorem setParent_reparenting_witness :
    (⟨"base_link", some "odom", [], defaultMaxStorageTime⟩ : Frame).setParent "map"
        = Except.error "Cannot reparent frame" ∧
    (⟨"base_link", some "odom", [], defaultMaxStorageTime⟩ : Frame).setParent "odom"
        = Except.ok ⟨"base_link", some "odom", [], defaultMaxStorageTime⟩ ∧
    (⟨"base_link", none, [], defaultMaxStorageTime⟩ : Frame).setParent "odom"
        = Except.ok ⟨"base_link", some "odom", [], defaultMaxStorageTime⟩ :=
  ⟨(setParent_reparenting _ "odom" "map").1 rfl (by decide),
   (setParent_reparenting _ "odom" "map").2.1 rfl,
   ((setParent_reparenting ⟨"base_link", none, [], defaultMaxStorageTime⟩ "odom" "odom").2.2 rfl).1⟩

/-- Frame `root` of the non-atomicity scenario. -/
def frameRootC9 : Frame := ⟨"root", none, [], defaultMaxStorageTime⟩

/-- Frame `a` of the non-atomicity scenario: child of `root`, translation
`(1, 2, 3)` at time zero. -/
def frameAC9 : Frame := ⟨"a", some "root", [(timeZero, tfOdomBase)], defaultMaxStorageTime⟩

/-- Frame `b` of the non-atomicity scenario: child of `root` whose only
history entry is far outside `maxDelta` of the query time. -/
def frameBC9 : Frame := ⟨"b", some "root", [(⟨1000, 0⟩, Transform.identityTf)], defaultMaxStorageTime⟩

/-- Graph of the non-atomicity scenario: two siblings under a common root. -/
def nonAtomicGraph : FrameGraph := [frameAC9, frameBC9, frameRootC9]

/-- C9: `apply` is not atomic on failure.  In the common-ancestor case the
first half of the composition writes its result into the caller-supplied
output pose before the second half's history lookup fails, so `apply` returns
the failure signal while `out` no longer holds its initial contents. -/
theorem apply_failure_can_overwrite_out :
    CoordinateFrame.apply nonAtomicGraph frameBC9 frameAC9 emptyPose emptyPose
        timeZero oneSecond = (.fail, ⟨⟨1, 2, 3⟩, quatIdentity⟩) ∧
    (⟨⟨1, 2, 3⟩, quatIdentity⟩ : Pose) ≠ emptyPose := by
  constructor
  · norm_num +decide [CoordinateFrame.apply, CoordinateFrame.Apply,
      CoordinateFrame.GetTransformMatrix, gtmLoop, CoordinateFrame.Interpolate,
      Frame.findAncestor, findAncestorLoop, findFrame, List.find?,
      applyCommonParentLoop, findClosestTransforms, isDiffWithinDelta, areEqual,
      timeSub, timeCompare, fixTime, isLessThan, nonAtomicGraph, frameAC9,
      frameBC9, frameRootC9, tfOdomBase, timeZero, oneSecond,
      defaultMaxStorageTime, emptyPose, vec3Zero, quatIdentity,
      Transform.identityTf, Transform.setPose, Transform.create, quatNormalize,
      quatNormSq, ratSqrt_one, ratSqrt_four, Transform.matrix,
      fromRotationTranslation, mat4Multiply, mat4Identity, Transform.setMatrix,
      getTranslation, getRotationQ, getRotationScaled, Transform.toPose,
      rigidInvert, mat4Transpose]
  · norm_num [emptyPose, vec3Zero, quatIdentity]

/-- C2 counterexample: on the multi-hop fixture both round-trip `apply` calls
succeed, yet the result differs from the input identity pose by the
translation `(-18, -36, 0)` - far outside any floating-point tolerance.  The
inversion block of `Apply` negates the translation without rotating it
(`[R^T, -t]` instead of the true rigid inverse `[R^T, -R^T t]`), so the two
halves do not cancel whenever the composed rotation moves the translation. -/
theorem roundtrip_fails_on_fixture :
    CoordinateFrame.apply fixtureGraph mapFrame baseLinkFrame emptyPose emptyPose
      timeZero oneSecond = (.ok, ⟨⟨9, 18, 33⟩, ⟨0, 0, 1, 0⟩⟩) ∧
    CoordinateFrame.apply fixtureGraph baseLinkFrame mapFrame emptyPose
        ⟨⟨9, 18, 33⟩, ⟨0, 0, 1, 0⟩⟩ timeZero oneSecond
      = (.ok, ⟨⟨-18, -36, 0⟩, quatIdentity⟩) ∧
    (⟨⟨-18, -36, 0⟩, quatIdentity⟩ : Pose) ≠ emptyPose := by
  refine ⟨fixture_multi_hop_queries.1, ?_, ?_⟩
  · norm_num +decide [CoordinateFrame.apply, CoordinateFrame.Apply,
      CoordinateFrame.GetTransformMatrix, gtmLoop, CoordinateFrame.Interpolate,
      Frame.findAncestor, findAncestorLoop, findFrame, List.find?,
      findClosestTransforms, isDiffWithinDelta, areEqual, timeSub, timeCompare,
      fixTime, isLessThan, fixtureGraph, baseLinkFrame, odomFrame, mapFrame,
      tfOdomBase, tfMapOdom, timeZero, oneSecond, defaultMaxStorageTime,
      emptyPose, vec3Zero, quatIdentity, Transform.setPose, Transform.create,
      quatNormalize, quatNormSq, ratSqrt_one, ratSqrt_four, Transform.matrix,
      fromRotationTranslation, mat4Multiply, mat4Identity, Transform.setMatrix,
      getTranslation, getRotationQ, getRotationScaled, Transform.toPose,
      rigidInvert, mat4Transpose]
  · norm_num [emptyPose, vec3Zero, quatIdentity]

def halfSecondTime : RTime := ⟨0, 500000000⟩

/-- True absolute difference of two times, the quantity the specification's
acceptance test `|time - entryTime| <= maxDelta` refers to. -/
def absTimeDiff (a b : RTime) : RTime :=
  if isLessThan a b then timeSub b a else timeSub a b

/-- C3 counterexample: a single history entry at 1 s queried at 0.5 s with
`maxDelta` of 1 s.  The true difference (0.5 s) is within `maxDelta`, yet the
lookup fails: `isDiffWithinDelta` normalizes the negative difference to
`{sec: -1, nsec: 5e8}` and takes the absolute value of the seconds field
only, producing 1.5 s. -/
theorem bracket_within_delta_yet_not_found :
    timeCompare (absTimeDiff halfSecondTime oneSecond) oneSecond ≤ 0 ∧
    findClosestTransforms [(oneSecond, Transform.identityTf)] halfSecondTime oneSecond
      = none := by
  decide

theorem timeCompare_self (a : RTime) : timeCompare a a = 0 := by
  simp [timeCompare]

theorem timeCompare_pos_of_neg {a b : RTime} (h : timeCompare a b < 0) :
    0 < timeCompare b a := by
  unfold timeCompare at h ⊢
  split_ifs at h ⊢ <;> omega

theorem timeCompare_trans {a b c : RTime} (hab : timeCompare a b < 0)
    (hbc : timeCompare b c < 0) : timeCompare a c < 0 := by
  unfold timeCompare at hab hbc ⊢
  split_ifs at hab hbc ⊢ <;> omega

theorem timeCompare_eq_zero_iff (a b : RTime) : timeCompare a b = 0 ↔ a = b := by
  cases a
  cases b
  simp only [timeCompare, RTime.mk.injEq]
  split_ifs <;> omega

theorem isLessThan_trans {a b c : RTime} (hab : isLessThan a b = true)
    (hbc : isLessThan b c = true) : isLessThan a c = true := by
  simp only [isLessThan, decide_eq_true_eq] at hab hbc ⊢
  exact timeCompare_trans hab hbc

theorem insertEntry_ne_nil (h : List TimeAndTransform) (t : RTime) (tf : Transform) :
    insertEntry h t tf ≠ [] := by
  cases h with
  | nil => simp [insertEntry]
  | cons e rest =>
    simp only [insertEntry]
    split_ifs <;> simp

theorem evictOld_eq_drop (c : RTime) (l : List TimeAndTransform) :
    evictOld c l =
      l.drop (min (l.takeWhile (fun e => isLessThan e.1 c)).length (l.length - 1)) := by
  induction l with
  | nil => simp [evictOld]
  | cons e rest ih =>
    cases rest with
    | nil => simp [evictOld]
    | cons f rest' =>
      by_cases hc : isLessThan e.1 c = true
      · have h1 : evictOld c (e :: f :: rest') = evictOld c (f :: rest') := by
          rw [evictOld]
          simp [hc]
        have htw : List.takeWhile (fun e => isLessThan e.1 c) (e :: f :: rest')
            = e :: List.takeWhile (fun e => isLessThan e.1 c) (f :: rest') :=
          @List.takeWhile_cons_of_pos _ (fun x => isLessThan x.1 c) e (f :: rest') hc
        rw [h1, ih, htw]
        simp only [List.length_cons, Nat.add_sub_cancel]
        rw [Nat.succ_min_succ, List.drop_succ_cons]
      · have h1 : evictOld c (e :: f :: rest') = e :: f :: rest' := by
          rw [evictOld]
          simp [hc]
        have htw : List.takeWhile (fun e => isLessThan e.1 c) (e :: f :: rest') = [] :=
          @List.takeWhile_cons_of_neg _ (fun x => isLessThan x.1 c) e (f :: rest') hc
        rw [h1, htw]
        simp

theorem getLast?_drop_of_lt {α : Type} (l : List α) (n : ℕ) (hn : n < l.length) :
    (l.drop n).getLast? = l.getLast? := by
  induction l generalizing n with
  | nil => simp at hn
  | cons e rest ih =>
    cases n with
    | zero => rfl
    | succ m =>
      rw [List.drop_succ_cons]
      have hm : m < rest.length := by simpa using hn
      rw [ih m hm]
      cases rest with
      | nil => simp at hm
      | cons f rest' => rw [List.getLast?_cons_cons]

theorem insertEntry_replace (h : List TimeAndTransform) (t : RTime) (tf : Transform)
    (hs : List.Pairwise (fun a b => isLessThan a.1 b.1 = true) h)
    (hm : t ∈ h.map Prod.fst) :
    (insertEntry h t tf).length = h.length ∧
    (insertEntry h t tf).map Prod.fst = h.map Prod.fst ∧
    (t, tf) ∈ insertEntry h t tf := by
  induction h with
  | nil => simp at hm
  | cons e rest ih =>
    rw [List.pairwise_cons] at hs
    rcases (by simpa using hm) with he | hrest
    · subst he
      have h0 : timeCompare e.1 e.1 = 0 := timeCompare_self _
      have hn : ¬ timeCompare e.1 e.1 < 0 := by omega
      simp only [insertEntry, hn, h0, if_false, if_true]
      simp
    · obtain ⟨tfx, henm⟩ := hrest
      have hlt : isLessThan e.1 t = true := by
        have := hs.1 (t, tfx) henm
        simpa using this
      have hgt : 0 < timeCompare t e.1 := by
        simp only [isLessThan, decide_eq_true_eq] at hlt
        exact timeCompare_pos_of_neg hlt
      have hne : ¬ timeCompare t e.1 < 0 := by omega
      have hnz : ¬ timeCompare t e.1 = 0 := by omega
      simp only [insertEntry, hne, hnz, if_false]
      have hmem : t ∈ rest.map Prod.fst := by
        have := List.mem_map_of_mem Prod.fst henm
        simpa using this
      obtain ⟨ha, hb, hc⟩ := ih hs.2 hmem
      refine ⟨by simpa using ha, by simpa using hb, by simp [hc]⟩

/-- C6: retention after each insertion.  The history after `addTransform`
equals the overwrite-or-insert result with the maximal prefix of entries
older than `newest - maxStorageTime` dropped, capped so that at least one
entry remains: the result is never empty, the newest entry is never evicted
(the last entry is preserved), and inserting at a timestamp already present
replaces that entry without adding a duplicate key. -/
theorem addTransform_retention (w : RTime) (h : List TimeAndTransform) (t : RTime)
    (tf : Transform) :
    (addTransformHistory w h t tf ≠ []) ∧
    ((addTransformHistory w h t tf).getLast? = (insertEntry h t tf).getLast?) ∧
    (addTransformHistory w h t tf =
      (insertEntry h t tf).drop
        (min ((insertEntry h t tf).takeWhile
                (fun e => isLessThan e.1
                  (timeSub ((((insertEntry h t tf).getLast?).map Prod.fst).getD t) w))).length
             ((insertEntry h t tf).length - 1))) ∧
    (List.Pairwise (fun a b => isLessThan a.1 b.1 = true) h → t ∈ h.map Prod.fst →
      (insertEntry h t tf).length = h.length ∧
      (insertEntry h t tf).map Prod.fst = h.map Prod.fst ∧
      (t, tf) ∈ insertEntry h t tf) := by
  have hlen : 1 ≤ (insertEntry h t tf).length := by
    have := insertEntry_ne_nil h t tf
    cases hh : insertEntry h t tf with
    | nil => exact absurd hh this
    | cons a l => simp
  have hdrop : addTransformHistory w h t tf =
      (insertEntry h t tf).drop
        (min ((insertEntry h t tf).takeWhile
                (fun e => isLessThan e.1
                  (timeSub ((((insertEntry h t tf).getLast?).map Prod.fst).getD t) w))).length
             ((insertEntry h t tf).length - 1)) := by
    simp only [addTransformHistory]
    exact evictOld_eq_drop _ _
  have hmin : min ((insertEntry h t tf).takeWhile
                (fun e => isLessThan e.1
                  (timeSub ((((insertEntry h t tf).getLast?).map Prod.fst).getD t) w))).length
             ((insertEntry h t tf).length - 1) < (insertEntry h t tf).length := by
    have : (insertEntry h t tf).length - 1 < (insertEntry h t tf).length := by omega
    omega
  refine ⟨?_, ?_, hdrop, fun hs hm => insertEntry_replace h t tf hs hm⟩
  · rw [hdrop]
    intro hnil
    rw [List.drop_eq_nil_iff] at hnil
    omega
  · rw [hdrop]
    exact getLast?_drop_of_lt _ _ hmin

theorem addTransform_retention_witness :
    (addTransformHistory ⟨10, 0⟩ [(⟨0, 0⟩, Transform.identityTf)] ⟨20, 0⟩ Transform.identityTf
        ≠ []) ∧
    List.Pairwise (fun (a b : TimeAndTransform) => isLessThan a.1 b.1 = true)
        [(⟨0, 0⟩, Transform.identityTf), (⟨5, 0⟩, Transform.identityTf)] ∧
    (⟨5, 0⟩ : RTime) ∈
        ([(⟨0, 0⟩, Transform.identityTf), (⟨5, 0⟩, Transform.identityTf)].map Prod.fst) ∧
    (insertEntry [(⟨0, 0⟩, Transform.identityTf), (⟨5, 0⟩, Transform.identityTf)]
        ⟨5, 0⟩ Transform.identityTf).length = 2 := by
  refine ⟨(addTransform_retention ⟨10, 0⟩ _ _ _).1, by decide, by decide, ?_⟩
  have h4 := ((addTransform_retention ⟨10, 0⟩
      [(⟨0, 0⟩, Transform.identityTf), (⟨5, 0⟩, Transform.identityTf)]
      ⟨5, 0⟩ Transform.identityTf).2.2.2 (by decide) (by decide)).1
  simpa using h4

theorem areEqual_iff (a b : RTime) : areEqual a b = true ↔ a = b := by
  cases a
  cases b
  simp [areEqual, RTime.mk.injEq]

theorem areEqual_false_of_ne {a b : RTime} (h : a ≠ b) : areEqual a b = false := by
  by_cases hb : areEqual a b = true
  · exact absurd ((areEqual_iff a b).mp hb) h
  · simpa using hb

theorem findLE_none_of_all_gt {h : List TimeAndTransform} {t : RTime}
    (hall : ∀ e ∈ h, 0 < timeCompare e.1 t) : findLessThanOrEqual h t = none := by
  cases h with
  | nil => rfl
  | cons e rest =>
    have : 0 < timeCompare e.1 t := hall e (List.mem_cons_self e rest)
    simp only [findLessThanOrEqual]
    rw [if_neg (by omega)]

theorem findLE_exact {h : List TimeAndTransform} {t : RTime} {tfx : Transform}
    (hs : List.Pairwise (fun a b => isLessThan a.1 b.1 = true) h)
    (hm : (t, tfx) ∈ h) : findLessThanOrEqual h t = some (t, tfx) := by
  induction h with
  | nil => simp at hm
  | cons e rest ih =>
    rw [List.pairwise_cons] at hs
    rcases List.mem_cons.mp hm with he | hrest
    · subst he
      have hrgt : ∀ e' ∈ rest, 0 < timeCompare e'.1 t := by
        intro e' he'
        have := hs.1 e' he'
        simp only [isLessThan, decide_eq_true_eq] at this
        exact timeCompare_pos_of_neg this
      simp only [findLessThanOrEqual]
      rw [if_pos (by rw [timeCompare_self]), findLE_none_of_all_gt hrgt]
    · have hkey : isLessThan e.1 t = true := by
        have := hs.1 (t, tfx) hrest
        simpa using this
      simp only [isLessThan, decide_eq_true_eq] at hkey
      simp only [findLessThanOrEqual]
      rw [if_pos (by omega), ih hs.2 hrest]

theorem findLE_all_le {h : List TimeAndTransform} {t : RTime}
    (hall : ∀ e ∈ h, timeCompare e.1 t ≤ 0) (hne : h ≠ []) :
    findLessThanOrEqual h t = h.getLast? := by
  induction h with
  | nil => exact absurd rfl hne
  | cons e rest ih =>
    have he : timeCompare e.1 t ≤ 0 := hall e (List.mem_cons_self e rest)
    simp only [findLessThanOrEqual]
    rw [if_pos he]
    cases rest with
    | nil => rfl
    | cons f rest' =>
      rw [ih (fun x hx => hall x (List.mem_cons_of_mem e hx)) (by simp)]
      have : ∃ a, (f :: rest').getLast? = some a := by
        cases hle : (f :: rest').getLast? with
        | none => simp at hle
        | some a => exact ⟨a, rfl⟩
      obtain ⟨a, ha⟩ := this
      rw [List.getLast?_cons_cons, ha]

theorem findGT_none_of_all_le {h : List TimeAndTransform} {t : RTime}
    (hall : ∀ e ∈ h, ¬ 0 < timeCompare e.1 t) : findGreaterThan h t = none := by
  induction h with
  | nil => rfl
  | cons e rest ih =>
    simp only [findGreaterThan]
    rw [if_neg (hall e (List.mem_cons_self e rest))]
    exact ih fun x hx => hall x (List.mem_cons_of_mem e hx)

theorem findLE_bracket {t : RTime} (lo hi : TimeAndTransform)
    (post : List TimeAndTransform) (hlo : timeCompare lo.1 t ≤ 0)
    (hhi : 0 < timeCompare hi.1 t) :
    ∀ pre : List TimeAndTransform, (∀ e ∈ pre, timeCompare e.1 t ≤ 0) →
      findLessThanOrEqual (pre ++ lo :: hi :: post) t = some lo := by
  intro pre
  induction pre with
  | nil =>
    intro _
    simp only [List.nil_append, findLessThanOrEqual]
    rw [if_pos hlo, if_neg (by omega)]
  | cons p pre' ih =>
    intro hall
    simp only [List.cons_append, findLessThanOrEqual, List.append_eq]
    rw [if_pos (hall p (List.mem_cons_self p pre'))]
    rw [ih fun x hx => hall x (List.mem_cons_of_mem p hx)]

theorem findGT_bracket {t : RTime} (lo hi : TimeAndTransform)
    (post : List TimeAndTransform) (hlo : ¬ 0 < timeCompare lo.1 t)
    (hhi : 0 < timeCompare hi.1 t) :
    ∀ pre : List TimeAndTransform, (∀ e ∈ pre, ¬ 0 < timeCompare e.1 t) →
      findGreaterThan (pre ++ lo :: hi :: post) t = some hi := by
  intro pre
  induction pre with
  | nil =>
    intro _
    simp only [List.nil_append, findGreaterThan]
    rw [if_neg hlo, if_pos hhi]
  | cons p pre' ih =>
    intro hall
    simp only [List.cons_append, findGreaterThan]
    rw [if_neg (hall p (List.mem_cons_self p pre'))]
    exact ih fun x hx => hall x (List.mem_cons_of_mem p hx)

/-- C3 amended: full characterization of `findClosestTransforms` on a sorted
history.  Empty histories fail; a single entry (and likewise a query outside
the range of a multi-entry history) is accepted exactly when
`isDiffWithinDelta` accepts it - not when the true absolute difference is
within `maxDelta`: the two coincide whenever the query is at or after the
entry (final conjunct), but `isDiffWithinDelta` overestimates the difference
of a query strictly before the entry by a fractional second.  An exact-time
match returns that entry as both bracket ends, and a query strictly between
two adjacent entries returns that pair. -/
theorem findClosestTransforms_characterization
    (h : List TimeAndTransform) (t d : RTime)
    (hs : List.Pairwise (fun a b => isLessThan a.1 b.1 = true) h) :
    (findClosestTransforms [] t d = none) ∧
    (∀ e : TimeAndTransform, findClosestTransforms [e] t d =
        (if isDiffWithinDelta t e.1 d then some (e, e) else none)) ∧
    (∀ tfx : Transform, 2 ≤ h.length → (t, tfx) ∈ h →
        findClosestTransforms h t d = some ((t, tfx), (t, tfx))) ∧
    (∀ e0 h', h = e0 :: h' → h' ≠ [] → timeCompare t e0.1 < 0 →
        findClosestTransforms h t d =
          (if isDiffWithinDelta t e0.1 d then some (e0, e0) else none)) ∧
    (∀ lastE, 2 ≤ h.length → (∀ e ∈ h, timeCompare e.1 t < 0) →
        h.getLast? = some lastE →
        findClosestTransforms h t d =
          (if isDiffWithinDelta t lastE.1 d then some (lastE, lastE) else none)) ∧
    (∀ pre lo hi post, h = pre ++ lo :: hi :: post →
        timeCompare lo.1 t < 0 → timeCompare t hi.1 < 0 →
        findClosestTransforms h t d = some (lo, hi)) ∧
    (∀ a b : RTime, 0 ≤ a.nsec → a.nsec < 1000000000 → 0 ≤ b.nsec →
        b.nsec < 1000000000 → timeCompare b a ≤ 0 →
        (isDiffWithinDelta a b d = true ↔ timeCompare (absTimeDiff a b) d ≤ 0)) := by
  refine ⟨rfl, fun e => rfl, ?_, ?_, ?_, ?_, ?_⟩
  · intro tfx hlen hm
    match h, hlen with
    | e0 :: e1 :: rest, _ =>
      have hfle := findLE_exact hs hm
      simp only [findClosestTransforms, hfle]
      rw [if_pos ((areEqual_iff t t).mpr rfl)]
  · intro e0 h' hsplit hne hlt
    subst hsplit
    match h', hne with
    | e1 :: rest, _ =>
      have hfle : findLessThanOrEqual (e0 :: e1 :: rest) t = none := by
        simp only [findLessThanOrEqual]
        rw [if_neg (by have := timeCompare_pos_of_neg hlt; omega)]
      simp only [findClosestTransforms, hfle]
  · intro lastE hlen hall hlast
    match h, hlen, hs, hall, hlast with
    | e0 :: e1 :: rest, _, hs, hall, hlast =>
      have hfle : findLessThanOrEqual (e0 :: e1 :: rest) t = some lastE := by
        rw [findLE_all_le (fun e he => by have := hall e he; omega) (by simp), hlast]
      have hmem : lastE ∈ e0 :: e1 :: rest := List.mem_of_getLast?_eq_some hlast
      have hne : lastE.1 ≠ t := by
        have := hall lastE hmem
        intro hcontra
        rw [hcontra, timeCompare_self] at this
        omega
      have hfgt : findGreaterThan (e0 :: e1 :: rest) t = none :=
        findGT_none_of_all_le (fun e he => by have := hall e he; omega)
      simp only [findClosestTransforms, hfle, areEqual_false_of_ne hne, hfgt,
        Bool.false_eq_true, if_false, hlast]
  · intro pre lo hi post hsplit hlo hhi
    subst hsplit
    rw [List.pairwise_append] at hs
    have hprelt : ∀ e ∈ pre, timeCompare e.1 t ≤ 0 := by
      intro e he
      have := hs.2.2 e he lo (List.mem_cons_self lo (hi :: post))
      simp only [isLessThan, decide_eq_true_eq] at this
      have := timeCompare_trans this hlo
      omega
    have hhigt : 0 < timeCompare hi.1 t := timeCompare_pos_of_neg hhi
    have hfle := findLE_bracket lo hi post (by omega) hhigt pre hprelt
    have hfgt := findGT_bracket lo hi post (by omega) hhigt pre
      (fun e he => by have := hprelt e he; omega)
    have hne : lo.1 ≠ t := by
      intro hcontra
      rw [hcontra, timeCompare_self] at hlo
      omega
    cases pre with
    | nil =>
      simp only [List.nil_append] at hfle hfgt ⊢
      simp only [findClosestTransforms, hfle, areEqual_false_of_ne hne, hfgt,
        Bool.false_eq_true, if_false]
    | cons p pre' =>
      obtain ⟨q, tail', htl⟩ : ∃ q tail', pre' ++ lo :: hi :: post = q :: tail' := by
        cases pre' with
        | nil => exact ⟨lo, hi :: post, rfl⟩
        | cons a b => exact ⟨a, b ++ lo :: hi :: post, rfl⟩
      simp only [List.cons_append, htl] at hfle hfgt ⊢
      simp only [findClosestTransforms, hfle, areEqual_false_of_ne hne, hfgt,
        Bool.false_eq_true, if_false]
  · intro a b han0 han1 hbn0 hbn1 hba
    have hsec : 0 ≤ (timeSub a b).sec := by
      simp only [timeSub, fixTime]
      rw [Int.fdiv_eq_ediv _ (by norm_num)]
      unfold timeCompare at hba
      split_ifs at hba <;> omega
    have heq : absTimeDiff a b = timeSub a b := by
      unfold absTimeDiff
      rw [if_neg ?_]
      simp only [isLessThan, decide_eq_true_eq, not_lt]
      unfold timeCompare at hba ⊢
      split_ifs at hba ⊢ <;> omega
    rw [heq]
    simp only [isDiffWithinDelta, decide_eq_true_eq]
    rw [if_neg (by omega)]

theorem findClosestTransforms_characterization_witness :
    findClosestTransforms
        [(⟨0, 0⟩, Transform.identityTf), (⟨2, 0⟩, Transform.identityTf)] ⟨1, 0⟩ oneSecond
      = some ((⟨0, 0⟩, Transform.identityTf), (⟨2, 0⟩, Transform.identityTf)) :=
  (findClosestTransforms_characterization
      [(⟨0, 0⟩, Transform.identityTf), (⟨2, 0⟩, Transform.identityTf)] ⟨1, 0⟩ oneSecond
      (by decide)).2.2.2.2.2.1
    [] (⟨0, 0⟩, Transform.identityTf) (⟨2, 0⟩, Transform.identityTf) [] rfl
    (by decide) (by decide)

/-- Frames visited after the given parent link by the child-to-parent walks,
in walk order; the fuel mirrors the loop fuel of the walk functions. -/
def chainTail (g : FrameGraph) : ℕ → Option String → List Frame
  | _, none => []
  | 0, some _ => []
  | fuel + 1, some pid =>
    match findFrame g pid with
    | none => []
    | some pf => pf :: chainTail g fuel pf.parent

theorem gtmLoop_fail (g : FrameGraph) (P : String) (t d : RTime) :
    ∀ fuel (cur : Frame) (acc : Mat4),
      (∃ fr ∈ (cur :: chainTail g fuel cur.parent).takeWhile (fun fr => fr.id != P),
          findClosestTransforms fr.history t d = none) →
      gtmLoop g P t d fuel cur acc = .fail := by
  intro fuel
  induction fuel with
  | zero =>
    intro cur acc hex
    rw [gtmLoop]
    by_cases hp : (cur.id == P) = true
    · exfalso
      have htw : (cur :: chainTail g 0 cur.parent).takeWhile (fun fr => fr.id != P) = [] :=
        @List.takeWhile_cons_of_neg _ (fun fr : Frame => fr.id != P) cur _
          (by simp [bne]; simpa using hp)
      rw [htw] at hex
      simp at hex
    · have hpr : (fun (fr : Frame) => fr.id != P) cur = true := by
        simp [bne]
        simpa using hp
      rw [if_neg hp]
      cases hb : findClosestTransforms cur.history t d with
      | none => rfl
      | some pair =>
        exfalso
        have htw := @List.takeWhile_cons_of_pos _ (fun fr : Frame => fr.id != P) cur
          (chainTail g 0 cur.parent) hpr
        rw [htw] at hex
        obtain ⟨fr, hfr, hnone⟩ := hex
        rcases List.mem_cons.mp hfr with h1 | h2
        · subst h1
          rw [hb] at hnone
          exact Option.noConfusion hnone
        · rcases hc : cur.parent with _ | pid <;> rw [hc] at h2 <;> simp [chainTail] at h2
  | succ n ih =>
    intro cur acc hex
    rw [gtmLoop]
    by_cases hp : (cur.id == P) = true
    · exfalso
      have htw : (cur :: chainTail g (n + 1) cur.parent).takeWhile (fun fr => fr.id != P)
          = [] :=
        @List.takeWhile_cons_of_neg _ (fun fr : Frame => fr.id != P) cur _
          (by simp [bne]; simpa using hp)
      rw [htw] at hex
      simp at hex
    · have hpr : (fun (fr : Frame) => fr.id != P) cur = true := by
        simp [bne]
        simpa using hp
      rw [if_neg hp]
      cases hb : findClosestTransforms cur.history t d with
      | none => rfl
      | some pair =>
        have htw := @List.takeWhile_cons_of_pos _ (fun fr : Frame => fr.id != P) cur
          (chainTail g (n + 1) cur.parent) hpr
        rw [htw] at hex
        obtain ⟨fr, hfr, hnone⟩ := hex
        have hfr' : fr ∈ (chainTail g (n + 1) cur.parent).takeWhile
            (fun fr => fr.id != P) := by
          rcases List.mem_cons.mp hfr with h1 | h2
          · exfalso
            subst h1
            rw [hb] at hnone
            exact Option.noConfusion hnone
          · exact h2
        rcases hc : cur.parent with _ | pid
        · exfalso
          rw [hc] at hfr'
          simp [chainTail] at hfr'
        · rw [hc] at hfr'
          cases hff : findFrame g pid with
          | none =>
            exfalso
            simp [chainTail, hff] at hfr'
          | some pf =>
            simp only [chainTail, hff] at hfr'
            cases pair with
            | mk lo hi =>
              have hres := ih pf
                (mat4Multiply ((CoordinateFrame.Interpolate lo hi t).2).matrix acc)
                ⟨fr, hfr', hnone⟩
              simpa [hff] using hres

theorem gtmLoop_err (g : FrameGraph) (P : String) (t d : RTime) :
    ∀ fuel (cur : Frame) (acc : Mat4),
      reachesRootAux g fuel cur.parent = true →
      (∀ fr ∈ cur :: chainTail g fuel cur.parent,
          (findClosestTransforms fr.history t d).isSome = true) →
      P ∉ (cur :: chainTail g fuel cur.parent).map Frame.id →
      gtmLoop g P t d fuel cur acc = .err := by
  intro fuel
  induction fuel with
  | zero =>
    intro cur acc hrr hok hnp
    rw [gtmLoop]
    have hp : ¬ (cur.id == P) = true := by
      intro hcontra
      apply hnp
      simp only [List.map_cons, List.mem_cons]
      exact Or.inl (Eq.symm (by simpa using hcontra))
    rw [if_neg hp]
    have hsome := hok cur (List.mem_cons_self cur _)
    cases hb : findClosestTransforms cur.history t d with
    | none => rw [hb] at hsome; simp at hsome
    | some pair =>
      rcases hc : cur.parent with _ | pid
      · cases pair with
        | mk lo hi => rfl
      · exfalso
        rw [hc] at hrr
        simp [reachesRootAux] at hrr
  | succ n ih =>
    intro cur acc hrr hok hnp
    rw [gtmLoop]
    have hp : ¬ (cur.id == P) = true := by
      intro hcontra
      apply hnp
      simp only [List.map_cons, List.mem_cons]
      exact Or.inl (Eq.symm (by simpa using hcontra))
    rw [if_neg hp]
    have hsome := hok cur (List.mem_cons_self cur _)
    cases hb : findClosestTransforms cur.history t d with
    | none => rw [hb] at hsome; simp at hsome
    | some pair =>
      rcases hc : cur.parent with _ | pid
      · cases pair with
        | mk lo hi => rfl
      · rw [hc] at hrr hok hnp
        cases hff : findFrame g pid with
        | none =>
          exfalso
          simp [reachesRootAux, hff] at hrr
        | some pf =>
          simp only [reachesRootAux, hff] at hrr
          simp only [chainTail, hff] at hok hnp
          cases pair with
          | mk lo hi =>
            have hres := ih pf
              (mat4Multiply ((CoordinateFrame.Interpolate lo hi t).2).matrix acc) hrr
              (fun fr hfr => hok fr (List.mem_cons_of_mem cur hfr))
              (fun hcontra => hnp (by
                simp only [List.map_cons, List.mem_cons] at hcontra ⊢
                exact Or.inr (by simpa using hcontra)))
            simpa [hff] using hres

/-- C4: failure asymmetry of the multi-hop walk.  If some hop on the walk
from the child toward `parentId` (the prefix of the parent chain before the
first frame named `parentId`) has no history bracket, `GetTransformMatrix`
returns the soft failure - whether or not the chain contains `parentId`, and
in particular even when it reaches a parentless frame.  If instead every hop
lookup on the whole chain succeeds and `parentId` never appears on it - the
walk runs past the root - the call ends in the thrown
"is not a parent of" error rather than a soft failure. -/
theorem getTransformMatrix_failure_asymmetry (g : FrameGraph) (C : Frame) (P : String)
    (t d : RTime) (hwf : WFGraph g) (hC : C ∈ g) :
    ((∃ fr ∈ (C :: chainTail g g.length C.parent).takeWhile (fun fr => fr.id != P),
        findClosestTransforms fr.history t d = none) →
      CoordinateFrame.GetTransformMatrix g P C t d = .fail) ∧
    ((∀ fr ∈ C :: chainTail g g.length C.parent,
        (findClosestTransforms fr.history t d).isSome = true) →
      P ∉ (C :: chainTail g g.length C.parent).map Frame.id →
      CoordinateFrame.GetTransformMatrix g P C t d = .err) :=
  ⟨fun hex => gtmLoop_fail g P t d g.length C mat4Identity hex,
   fun hok hnp => gtmLoop_err g P t d g.length C mat4Identity (hwf.2.1 C hC) hok hnp⟩

/-- Child frame of the failure-asymmetry witness graphs. -/
def frameCW : Frame := ⟨"c", some "r", [(timeZero, Transform.identityTf)], defaultMaxStorageTime⟩

/-- Root with an empty history (its bracket lookup fails). -/
def frameREmptyW : Frame := ⟨"r", none, [], defaultMaxStorageTime⟩

/-- Root with a bracket at the query time (its lookup succeeds). -/
def frameRFullW : Frame := ⟨"r", none, [(timeZero, Transform.identityTf)], defaultMaxStorageTime⟩

theorem getTransformMatrix_failure_asymmetry_witness :
    CoordinateFrame.GetTransformMatrix [frameCW, frameREmptyW] "nope" frameCW
        timeZero oneSecond = .fail ∧
    CoordinateFrame.GetTransformMatrix [frameCW, frameRFullW] "nope" frameCW
        timeZero oneSecond = .err :=
  ⟨(getTransformMatrix_failure_asymmetry [frameCW, frameREmptyW] frameCW "nope"
      timeZero oneSecond ⟨by decide, by decide, by decide⟩ (by decide)).1 (by decide),
   (getTransformMatrix_failure_asymmetry [frameCW, frameRFullW] frameCW "nope"
      timeZero oneSecond ⟨by decide, by decide, by decide⟩ (by decide)).2 (by decide) (by decide)⟩

attribute [ext] Vec3 Quat Pose Mat4 Transform

/-- Componentwise sum of translations. -/
def vadd (a b : Vec3) : Vec3 := ⟨a.x + b.x, a.y + b.y, a.z + b.z⟩

/-- Componentwise negation of a translation. -/
def vneg (a : Vec3) : Vec3 := ⟨-a.x, -a.y, -a.z⟩

/-- Pure-translation homogeneous matrix. -/
def transMat (v : Vec3) : Mat4 := fromRotationTranslation quatIdentity v

theorem mat4Identity_eq_transMat : mat4Identity = transMat vec3Zero := by
  ext <;> simp [mat4Identity, transMat, fromRotationTranslation, quatIdentity, vec3Zero]

theorem transMat_mul_transMat (a b : Vec3) :
    mat4Multiply (transMat a) (transMat b) = transMat (vadd b a) := by
  ext <;> simp only [mat4Multiply, transMat, fromRotationTranslation, quatIdentity, vadd] <;> ring

theorem transMat_mul_fromRotTrans (v : Vec3) (q : Quat) (p : Vec3) :
    mat4Multiply (transMat v) (fromRotationTranslation q p)
      = fromRotationTranslation q (vadd p v) := by
  ext <;> simp only [mat4Multiply, transMat, fromRotationTranslation, quatIdentity, vadd] <;> ring

theorem rigidInvert_transMat (v : Vec3) :
    rigidInvert (transMat v) = transMat (vneg v) := by
  ext <;> simp [rigidInvert, mat4Transpose, transMat, fromRotationTranslation,
    quatIdentity, vneg]

theorem transMat_inj {a b : Vec3} (h : transMat a = transMat b) : a = b := by
  have hx := congrArg Mat4.m12 h
  have hy := congrArg Mat4.m13 h
  have hz := congrArg Mat4.m14 h
  simp only [transMat, fromRotationTranslation] at hx hy hz
  ext <;> assumption

theorem quatSlerp_identity (f : ℚ) :
    quatSlerp quatIdentity quatIdentity f = quatIdentity := by
  ext <;> norm_num [quatSlerp, quatIdentity]

theorem quatNormSq_identity : quatNormSq quatIdentity = 1 := by
  simp [quatNormSq, quatIdentity]

theorem transformInterpolate_rotation (a b : Transform) (f : ℚ)
    (ha : a.rotation = quatIdentity) (hb : b.rotation = quatIdentity) :
    (Transform.Interpolate a b f).rotation = quatIdentity := by
  simp only [Transform.Interpolate, Transform.create, ha, hb, quatSlerp_identity]
  exact quatNormalize_unit quatIdentity quatNormSq_identity

theorem interpolate_rotation_identity (lo hi : TimeAndTransform) (t : RTime)
    (hlo : lo.2.rotation = quatIdentity) (hhi : hi.2.rotation = quatIdentity) :
    (CoordinateFrame.Interpolate lo hi t).2.rotation = quatIdentity := by
  unfold CoordinateFrame.Interpolate
  split
  · exact hhi
  · exact transformInterpolate_rotation lo.2 hi.2 _ hlo hhi

theorem tfMatrix_of_identity_rotation (tf : Transform) (h : tf.rotation = quatIdentity) :
    tf.matrix = transMat tf.position := by
  rw [Transform.matrix, h, transMat]

theorem getRotationQ_of_unit_cols (m : Mat4)
    (h1 : m.m0 * m.m0 + m.m1 * m.m1 + m.m2 * m.m2 = 1)
    (h2 : m.m4 * m.m4 + m.m5 * m.m5 + m.m6 * m.m6 = 1)
    (h3 : m.m8 * m.m8 + m.m9 * m.m9 + m.m10 * m.m10 = 1) :
    getRotationQ m =
      getRotationScaled m.m0 m.m1 m.m2 m.m4 m.m5 m.m6 m.m8 m.m9 m.m10 := by
  unfold getRotationQ
  rw [h1, h2, h3, ratSqrt_one]
  norm_num

theorem getRotationScaled_unit (x y z w : ℚ)
    (hq : x * x + y * y + z * z + w * w = 1) (hw : 1 / 2 < w) :
    getRotationScaled (1 - 2 * (y * y) - 2 * (z * z)) (2 * (x * y) + 2 * (w * z))
      (2 * (x * z) - 2 * (w * y)) (2 * (x * y) - 2 * (w * z))
      (1 - 2 * (x * x) - 2 * (z * z)) (2 * (y * z) + 2 * (w * x))
      (2 * (x * z) + 2 * (w * y)) (2 * (y * z) - 2 * (w * x))
      (1 - 2 * (x * x) - 2 * (y * y)) = ⟨x, y, z, w⟩ := by
  unfold getRotationScaled
  have hw0 : 0 < w := lt_trans (by norm_num) hw
  have htr : 0 < 1 - 2 * (y * y) - 2 * (z * z) + (1 - 2 * (x * x) - 2 * (z * z)) +
      (1 - 2 * (x * x) - 2 * (y * y)) := by nlinarith
  rw [if_pos htr]
  have hs : 1 - 2 * (y * y) - 2 * (z * z) + (1 - 2 * (x * x) - 2 * (z * z)) +
      (1 - 2 * (x * x) - 2 * (y * y)) + 1 = 2 * w * (2 * w) := by
    linear_combination (-4 : ℚ) * hq
  rw [hs, ratSqrt_sq (2 * w) (by positivity)]
  have hwne : (2 : ℚ) * w * 2 ≠ 0 := by positivity
  ext
  · show (2 * (y * z) + 2 * (w * x) - (2 * (y * z) - 2 * (w * x))) / (2 * w * 2) = x
    field_simp
    ring
  · show (2 * (x * z) + 2 * (w * y) - (2 * (x * z) - 2 * (w * y))) / (2 * w * 2) = y
    field_simp
    ring
  · show (2 * (x * y) + 2 * (w * z) - (2 * (x * y) - 2 * (w * z))) / (2 * w * 2) = z
    field_simp
    ring
  · show 1 / 4 * (2 * w * 2) = w
    ring

theorem getRotationQ_rigid (q : Quat) (v : Vec3)
    (hq : quatNormSq q = 1) (hw : 1 / 2 < q.w) :
    getRotationQ (fromRotationTranslation q v) = q := by
  obtain ⟨x, y, z, w⟩ := q
  simp only [quatNormSq] at hq
  simp only at hw
  rw [getRotationQ_of_unit_cols]
  · have harg :
        getRotationScaled (fromRotationTranslation ⟨x, y, z, w⟩ v).m0
          (fromRotationTranslation ⟨x, y, z, w⟩ v).m1
          (fromRotationTranslation ⟨x, y, z, w⟩ v).m2
          (fromRotationTranslation ⟨x, y, z, w⟩ v).m4
          (fromRotationTranslation ⟨x, y, z, w⟩ v).m5
          (fromRotationTranslation ⟨x, y, z, w⟩ v).m6
          (fromRotationTranslation ⟨x, y, z, w⟩ v).m8
          (fromRotationTranslation ⟨x, y, z, w⟩ v).m9
          (fromRotationTranslation ⟨x, y, z, w⟩ v).m10 =
        getRotationScaled (1 - 2 * (y * y) - 2 * (z * z)) (2 * (x * y) + 2 * (w * z))
          (2 * (x * z) - 2 * (w * y)) (2 * (x * y) - 2 * (w * z))
          (1 - 2 * (x * x) - 2 * (z * z)) (2 * (y * z) + 2 * (w * x))
          (2 * (x * z) + 2 * (w * y)) (2 * (y * z) - 2 * (w * x))
          (1 - 2 * (x * x) - 2 * (y * y)) := by
      simp only [fromRotationTranslation]
      congr 1 <;> ring
    rw [harg, getRotationScaled_unit x y z w hq hw]
  · simp only [fromRotationTranslation]
    linear_combination (4 * (y * y) + 4 * (z * z)) * hq
  · simp only [fromRotationTranslation]
    linear_combination (4 * (x * x) + 4 * (z * z)) * hq
  · simp only [fromRotationTranslation]
    linear_combination (4 * (x * x) + 4 * (y * y)) * hq

theorem findLE_mem {h : List TimeAndTransform} {t : RTime} {e : TimeAndTransform}
    (hf : findLessThanOrEqual h t = some e) : e ∈ h := by
  induction h with
  | nil => simp [findLessThanOrEqual] at hf
  | cons a rest ih =>
    simp only [findLessThanOrEqual] at hf
    by_cases hc : timeCompare a.1 t ≤ 0
    · rw [if_pos hc] at hf
      cases hrec : findLessThanOrEqual rest t with
      | none =>
        rw [hrec] at hf
        simp only [Option.some.injEq] at hf
        subst hf
        exact List.mem_cons_self a rest
      | some e' =>
        rw [hrec] at hf
        simp only [Option.some.injEq] at hf
        subst hf
        exact List.mem_cons_of_mem a (ih hrec)
    · rw [if_neg hc] at hf
      exact Option.noConfusion hf

theorem findGT_mem {h : List TimeAndTransform} {t : RTime} {e : TimeAndTransform}
    (hf : findGreaterThan h t = some e) : e ∈ h := by
  induction h with
  | nil => simp [findGreaterThan] at hf
  | cons a rest ih =>
    simp only [findGreaterThan] at hf
    by_cases hc : 0 < timeCompare a.1 t
    · rw [if_pos hc] at hf
      simp only [Option.some.injEq] at hf
      subst hf
      exact List.mem_cons_self a rest
    · rw [if_neg hc] at hf
      exact List.mem_cons_of_mem a (ih hf)

theorem findClosestTransforms_mem {h : List TimeAndTransform} {t d : RTime}
    {lo hi : TimeAndTransform}
    (hf : findClosestTransforms h t d = some (lo, hi)) : lo ∈ h ∧ hi ∈ h := by
  match h with
  | [] => exact Option.noConfusion hf
  | [e] =>
    simp only [findClosestTransforms] at hf
    split at hf
    · simp only [Option.some.injEq, Prod.mk.injEq] at hf
      obtain ⟨h1, h2⟩ := hf
      subst h1
      subst h2
      exact ⟨List.mem_cons_self _ _, List.mem_cons_self _ _⟩
    · exact Option.noConfusion hf
  | e0 :: e1 :: rest =>
    simp only [findClosestTransforms] at hf
    cases hle : findLessThanOrEqual (e0 :: e1 :: rest) t with
    | none =>
      simp only [hle] at hf
      split at hf
      · simp only [Option.some.injEq, Prod.mk.injEq] at hf
        obtain ⟨h1, h2⟩ := hf
        subst h1
        subst h2
        exact ⟨List.mem_cons_self _ _, List.mem_cons_self _ _⟩
      · exact Option.noConfusion hf
    | some lte =>
      simp only [hle] at hf
      by_cases hae : areEqual lte.1 t = true
      · rw [if_pos hae] at hf
        simp only [Option.some.injEq, Prod.mk.injEq] at hf
        obtain ⟨h1, h2⟩ := hf
        subst h1
        subst h2
        exact ⟨findLE_mem hle, findLE_mem hle⟩
      · rw [if_neg hae] at hf
        cases hgt : findGreaterThan (e0 :: e1 :: rest) t with
        | none =>
          simp only [hgt] at hf
          cases hlast : (e0 :: e1 :: rest).getLast? with
          | none =>
            simp only [hlast] at hf
            exact Option.noConfusion hf
          | some last =>
            simp only [hlast] at hf
            split at hf
            · simp only [Option.some.injEq, Prod.mk.injEq] at hf
              obtain ⟨h1, h2⟩ := hf
              subst h1
              subst h2
              exact ⟨List.mem_of_getLast?_eq_some hlast,
                List.mem_of_getLast?_eq_some hlast⟩
            · exact Option.noConfusion hf
        | some gt =>
          simp only [hgt] at hf
          simp only [Option.some.injEq, Prod.mk.injEq] at hf
          obtain ⟨h1, h2⟩ := hf
          subst h1
          subst h2
          exact ⟨findLE_mem hle, findGT_mem hgt⟩

theorem findFrame_mem {g : FrameGraph} {fid : String} {f : Frame}
    (hf : findFrame g fid = some f) : f ∈ g :=
  List.mem_of_find?_eq_some hf

theorem findFrame_id {g : FrameGraph} {fid : String} {f : Frame}
    (hf : findFrame g fid = some f) : f.id = fid := by
  have := List.find?_some hf
  simpa using this

/-- Every transform stored in any history of the graph is a pure translation
(identity rotation quaternion). -/
def IdRotGraph (g : FrameGraph) : Prop :=
  ∀ f ∈ g, ∀ e ∈ f.history, e.2.rotation = quatIdentity

theorem interpolate_transMat {g : FrameGraph} (hg : IdRotGraph g) {cur : Frame}
    (hcur : cur ∈ g) {lo hi : TimeAndTransform} {t d : RTime}
    (hb : findClosestTransforms cur.history t d = some (lo, hi)) :
    ((CoordinateFrame.Interpolate lo hi t).2).matrix
      = transMat ((CoordinateFrame.Interpolate lo hi t).2).position := by
  obtain ⟨hlo, hhi⟩ := findClosestTransforms_mem hb
  exact tfMatrix_of_identity_rotation _
    (interpolate_rotation_identity lo hi t (hg cur hcur lo hlo) (hg cur hcur hi hhi))

theorem gtmLoop_transMat (g : FrameGraph) (P : String) (t d : RTime)
    (hg : IdRotGraph g) :
    ∀ fuel (cur : Frame), cur ∈ g → ∀ (v : Vec3) (m : Mat4),
      gtmLoop g P t d fuel cur (transMat v) = .ok m → ∃ u, m = transMat u := by
  intro fuel
  induction fuel with
  | zero =>
    intro cur hcur v m hok
    rw [gtmLoop] at hok
    by_cases hp : (cur.id == P) = true
    · rw [if_pos hp] at hok
      simp only [GTMRes.ok.injEq] at hok
      exact ⟨v, hok.symm⟩
    · rw [if_neg hp] at hok
      cases hb : findClosestTransforms cur.history t d with
      | none => simp only [hb] at hok; exact GTMRes.noConfusion hok
      | some pair =>
        cases pair with
        | mk lo hi =>
          simp only [hb] at hok
          rcases hc : cur.parent with _ | pid
          · simp only [hc] at hok
            exact GTMRes.noConfusion hok
          · simp only [hc] at hok
            cases hff : findFrame g pid with
            | none => simp only [hff] at hok; exact GTMRes.noConfusion hok
            | some pf => simp only [hff] at hok; exact GTMRes.noConfusion hok
  | succ n ih =>
    intro cur hcur v m hok
    rw [gtmLoop] at hok
    by_cases hp : (cur.id == P) = true
    · rw [if_pos hp] at hok
      simp only [GTMRes.ok.injEq] at hok
      exact ⟨v, hok.symm⟩
    · rw [if_neg hp] at hok
      cases hb : findClosestTransforms cur.history t d with
      | none => simp only [hb] at hok; exact GTMRes.noConfusion hok
      | some pair =>
        cases pair with
        | mk lo hi =>
          simp only [hb] at hok
          rcases hc : cur.parent with _ | pid
          · simp only [hc] at hok
            exact GTMRes.noConfusion hok
          · simp only [hc] at hok
            cases hff : findFrame g pid with
            | none => simp only [hff] at hok; exact GTMRes.noConfusion hok
            | some pf =>
              simp only [hff] at hok
              rw [interpolate_transMat hg hcur hb, transMat_mul_transMat] at hok
              exact ih pf (findFrame_mem hff) _ m hok

theorem getTransformMatrix_transMat {g : FrameGraph} {P : String} {C : Frame}
    {t d : RTime} {m : Mat4} (hg : IdRotGraph g) (hC : C ∈ g)
    (h : CoordinateFrame.GetTransformMatrix g P C t d = .ok m) :
    ∃ u, m = transMat u := by
  unfold CoordinateFrame.GetTransformMatrix at h
  rw [mat4Identity_eq_transMat] at h
  exact gtmLoop_transMat g P t d hg g.length C hC vec3Zero m h

theorem setPose_unit (p : Pose) (h : quatNormSq p.orientation = 1) :
    Transform.setPose p = ⟨p.position, p.orientation⟩ := by
  unfold Transform.setPose Transform.create
  rw [quatNormalize_unit _ h]

theorem Apply_ok_structure {g : FrameGraph} {P : String} {child : Frame}
    {invert : Bool} {outP input : Pose} {t d : RTime} {q : Pose}
    (hg : IdRotGraph g) (hchild : child ∈ g)
    (hu : quatNormSq input.orientation = 1) (hw : 1 / 2 < input.orientation.w)
    (h : CoordinateFrame.Apply g P child invert outP input t d = (.ok, q)) :
    ∃ u : Vec3, CoordinateFrame.GetTransformMatrix g P child t d = .ok (transMat u) ∧
      q = ⟨vadd input.position (if invert then vneg u else u), input.orientation⟩ := by
  unfold CoordinateFrame.Apply at h
  cases hm : CoordinateFrame.GetTransformMatrix g P child t d with
  | ok m =>
    obtain ⟨u, rfl⟩ := getTransformMatrix_transMat hg hchild hm
    refine ⟨u, rfl, ?_⟩
    simp only [hm] at h
    simp only [Prod.mk.injEq] at h
    rw [← h.2]
    rw [setPose_unit input hu]
    cases invert with
    | false =>
      simp only [if_neg (by simp : ¬ false = true), Bool.false_eq_true]
      show (Transform.setMatrix (mat4Multiply (transMat u)
        (Transform.matrix ⟨input.position, input.orientation⟩))).toPose = _
      rw [show Transform.matrix ⟨input.position, input.orientation⟩
            = fromRotationTranslation input.orientation input.position from rfl]
      rw [transMat_mul_fromRotTrans]
      show (⟨getTranslation _, getRotationQ _⟩ : Transform).toPose = _
      rw [getRotationQ_rigid input.orientation _ hu hw]
      rfl
    | true =>
      simp only [if_pos rfl]
      show (Transform.setMatrix (mat4Multiply (rigidInvert (transMat u))
        (Transform.matrix ⟨input.position, input.orientation⟩))).toPose = _
      rw [rigidInvert_transMat]
      rw [show Transform.matrix ⟨input.position, input.orientation⟩
            = fromRotationTranslation input.orientation input.position from rfl]
      rw [transMat_mul_fromRotTrans]
      show (⟨getTranslation _, getRotationQ _⟩ : Transform).toPose = _
      rw [getRotationQ_rigid input.orientation _ hu hw]
      rfl
  | fail => simp only [hm] at h; simp at h
  | err => simp only [hm] at h; simp at h
  | spin => simp only [hm] at h; simp at h

theorem chainTail_mem_graph (g : FrameGraph) :
    ∀ n p af, af ∈ chainTail g n p → af ∈ g := by
  intro n
  induction n with
  | zero =>
    intro p af haf
    cases p with
    | none => simp [chainTail] at haf
    | some pid => simp [chainTail] at haf
  | succ m ih =>
    intro p af haf
    cases p with
    | none => simp [chainTail] at haf
    | some pid =>
      cases hff : findFrame g pid with
      | none => simp [chainTail, hff] at haf
      | some pf =>
        simp only [chainTail, hff] at haf
        rcases List.mem_cons.mp haf with h1 | h2
        · subst h1
          exact findFrame_mem hff
        · exact ih pf.parent af h2

theorem chainTail_prefix (g : FrameGraph) :
    ∀ k, ∀ m, ∀ p, k ≤ m → ∃ suf, chainTail g m p = chainTail g k p ++ suf := by
  intro k
  induction k with
  | zero =>
    intro m p _
    refine ⟨chainTail g m p, ?_⟩
    cases p <;> simp [chainTail]
  | succ k ih =>
    intro m p hkm
    cases p with
    | none =>
      refine ⟨[], ?_⟩
      simp [chainTail]
    | some pid =>
      obtain ⟨m', rfl⟩ : ∃ m', m = m' + 1 := ⟨m - 1, by omega⟩
      cases hff : findFrame g pid with
      | none =>
        refine ⟨[], ?_⟩
        simp [chainTail, hff]
      | some pf =>
        obtain ⟨suf, hsuf⟩ := ih m' pf.parent (by omega)
        refine ⟨suf, ?_⟩
        simp [chainTail, hff, hsuf]

theorem chainTail_stable (g : FrameGraph) :
    ∀ n p, reachesRootAux g n p = true → ∀ m, n ≤ m → chainTail g m p = chainTail g n p := by
  intro n
  induction n with
  | zero =>
    intro p hr m hm
    cases p with
    | none => cases m <;> simp [chainTail]
    | some pid => simp [reachesRootAux] at hr
  | succ k ih =>
    intro p hr m hm
    cases p with
    | none => cases m <;> simp [chainTail]
    | some pid =>
      obtain ⟨m', rfl⟩ : ∃ m', m = m' + 1 := ⟨m - 1, by omega⟩
      cases hff : findFrame g pid with
      | none => simp [reachesRootAux, hff] at hr
      | some pf =>
        simp only [reachesRootAux, hff] at hr
        simp only [chainTail, hff]
        rw [ih pf.parent hr m' (by omega)]

theorem findAncestorLoop_stable (g : FrameGraph) (tid : String) :
    ∀ n p, reachesRootAux g n p = true → ∀ m, n ≤ m →
      findAncestorLoop g tid m p = findAncestorLoop g tid n p := by
  intro n
  induction n with
  | zero =>
    intro p hr m hm
    cases p with
    | none => cases m <;> simp [findAncestorLoop]
    | some pid => simp [reachesRootAux] at hr
  | succ k ih =>
    intro p hr m hm
    cases p with
    | none => cases m <;> simp [findAncestorLoop]
    | some pid =>
      obtain ⟨m', rfl⟩ : ∃ m', m = m' + 1 := ⟨m - 1, by omega⟩
      cases hff : findFrame g pid with
      | none => simp [reachesRootAux, hff] at hr
      | some pf =>
        simp only [reachesRootAux, hff] at hr
        simp only [findAncestorLoop, hff]
        by_cases hid : (pf.id == tid) = true
        · rw [if_pos hid, if_pos hid]
        · rw [if_neg hid, if_neg hid]
          exact ih pf.parent hr m' (by omega)

theorem findAncestorLoop_spec (g : FrameGraph) (tid : String) :
    ∀ n p af, findAncestorLoop g tid n p = some af →
      af ∈ g ∧ af.id = tid ∧ af ∈ chainTail g n p := by
  intro n
  induction n with
  | zero =>
    intro p af h
    cases p with
    | none => simp [findAncestorLoop] at h
    | some pid => simp [findAncestorLoop] at h
  | succ m ih =>
    intro p af h
    cases p with
    | none => simp [findAncestorLoop] at h
    | some pid =>
      cases hff : findFrame g pid with
      | none => simp [findAncestorLoop, hff] at h
      | some pf =>
        simp only [findAncestorLoop, hff] at h
        by_cases hid : (pf.id == tid) = true
        · rw [if_pos hid] at h
          simp only [Option.some.injEq] at h
          subst h
          refine ⟨findFrame_mem hff, by simpa using hid, ?_⟩
          simp only [chainTail, hff]
          exact List.mem_cons_self _ _
        · rw [if_neg hid] at h
          obtain ⟨h1, h2, h3⟩ := ih pf.parent af h
          refine ⟨h1, h2, ?_⟩
          simp only [chainTail, hff]
          exact List.mem_cons_of_mem _ h3

theorem findAncestorLoop_isSome_of_mem (g : FrameGraph) (tid : String) :
    ∀ n p, tid ∈ (chainTail g n p).map Frame.id →
      (findAncestorLoop g tid n p).isSome = true := by
  intro n
  induction n with
  | zero =>
    intro p h
    cases p with
    | none => simp [chainTail] at h
    | some pid => simp [chainTail] at h
  | succ m ih =>
    intro p h
    cases p with
    | none => simp [chainTail] at h
    | some pid =>
      cases hff : findFrame g pid with
      | none => simp [chainTail, hff] at h
      | some pf =>
        simp only [chainTail, hff, List.map_cons, List.mem_cons] at h
        simp only [findAncestorLoop, hff]
        by_cases hid : (pf.id == tid) = true
        · rw [if_pos hid]
          rfl
        · rw [if_neg hid]
          rcases h with h1 | h2
          · exact absurd (by simp [h1] : (pf.id == tid) = true) hid
          · exact ih pf.parent h2

theorem chainTail_decomp (g : FrameGraph) :
    ∀ n p af, reachesRootAux g n p = true → af ∈ chainTail g n p →
      ∃ pre k, chainTail g n p = pre ++ af :: chainTail g k af.parent ∧ k < n ∧
        reachesRootAux g k af.parent = true := by
  intro n
  induction n with
  | zero =>
    intro p af hr haf
    cases p with
    | none => simp [chainTail] at haf
    | some pid => simp [chainTail] at haf
  | succ m ih =>
    intro p af hr haf
    cases p with
    | none => simp [chainTail] at haf
    | some pid =>
      cases hff : findFrame g pid with
      | none => simp [chainTail, hff] at haf
      | some pf =>
        simp only [reachesRootAux, hff] at hr
        simp only [chainTail, hff] at haf
        rcases List.mem_cons.mp haf with h1 | h2
        · subst h1
          refine ⟨[], m, ?_, by omega, hr⟩
          simp [chainTail, hff]
        · obtain ⟨pre, k, hsplit, hk, hkr⟩ := ih pf.parent af hr h2
          refine ⟨pf :: pre, k, ?_, by omega, hkr⟩
          simp [chainTail, hff, hsplit]

/-- Strict ancestors of a frame, in walk order, at the canonical fuel. -/
def sAnc (g : FrameGraph) (f : Frame) : List Frame := chainTail g g.length f.parent

theorem mem_sAnc_depth_lt {g : FrameGraph} (hwf : WFGraph g) {u af : Frame}
    (hu : u ∈ g) (haf : af ∈ sAnc g u) :
    (sAnc g af).length < (sAnc g u).length := by
  have hr : reachesRootAux g g.length u.parent = true := hwf.2.1 u hu
  obtain ⟨pre, k, hsplit, hk, hkr⟩ := chainTail_decomp g g.length u.parent af hr haf
  have hstab : chainTail g g.length af.parent = chainTail g k af.parent :=
    chainTail_stable g k af.parent hkr g.length (by omega)
  unfold sAnc
  rw [hsplit, hstab]
  simp only [List.length_append, List.length_cons]
  omega

theorem frame_id_inj {g : FrameGraph} (hwf : WFGraph g) {a b : Frame}
    (ha : a ∈ g) (hb : b ∈ g) (hid : a.id = b.id) : a = b :=
  List.inj_on_of_nodup_map hwf.1 ha hb hid

theorem findAncestor_spec {g : FrameGraph} (hwf : WFGraph g) {f af : Frame} {tid : String}
    (hf : f ∈ g) (h : Frame.findAncestor g f tid = some af) :
    af ∈ g ∧ af.id = tid ∧ af ∈ sAnc g f := by
  unfold Frame.findAncestor at h
  have hr := hwf.2.1 f hf
  rw [findAncestorLoop_stable g tid g.length f.parent hr (g.length + 1) (by omega)] at h
  exact findAncestorLoop_spec g tid g.length f.parent af h

theorem findAncestor_isSome_of_mem_sAnc {g : FrameGraph} (hwf : WFGraph g) {f z : Frame}
    (hf : f ∈ g) (hz : z ∈ sAnc g f) : (Frame.findAncestor g f z.id).isSome = true := by
  unfold Frame.findAncestor
  have hr := hwf.2.1 f hf
  rw [findAncestorLoop_stable g z.id g.length f.parent hr (g.length + 1) (by omega)]
  exact findAncestorLoop_isSome_of_mem g z.id g.length f.parent
    (List.mem_map_of_mem Frame.id hz)

theorem findAncestor_antisym {g : FrameGraph} (hwf : WFGraph g) {a b : Frame}
    (ha : a ∈ g) (hb : b ∈ g) {f : Frame}
    (h : Frame.findAncestor g b a.id = some f) :
    Frame.findAncestor g a b.id = none := by
  obtain ⟨hf1, hf2, hf3⟩ := findAncestor_spec hwf hb h
  have hfa : f = a := frame_id_inj hwf hf1 ha hf2
  subst hfa
  cases hopt : Frame.findAncestor g f b.id with
  | none => rfl
  | some f' =>
    exfalso
    obtain ⟨hg1, hg2, hg3⟩ := findAncestor_spec hwf ha hopt
    have hfb : f' = b := frame_id_inj hwf hg1 hb hg2
    subst hfb
    have d1 := mem_sAnc_depth_lt hwf hb hf3
    have d2 := mem_sAnc_depth_lt hwf ha hg3
    omega

theorem chainTail_subset_sAnc {g : FrameGraph} (hwf : WFGraph g) {c : Frame}
    (hc : c ∈ g) (k : ℕ) {x : Frame} (hx : x ∈ chainTail g k c.parent) :
    x ∈ sAnc g c := by
  rcases le_or_lt k g.length with h | h
  · obtain ⟨suf, hsuf⟩ := chainTail_prefix g k g.length c.parent h
    unfold sAnc
    rw [hsuf]
    exact List.mem_append_left _ hx
  · have hstab := chainTail_stable g g.length c.parent (hwf.2.1 c hc) k (by omega)
    unfold sAnc
    rw [← hstab]
    exact hx

theorem vadd_vneg_cancel (v u : Vec3) : vadd (vadd v u) (vneg u) = v := by
  ext <;> simp only [vadd, vneg] <;> ring

theorem vneg_vadd_cancel (v u : Vec3) : vadd (vadd v (vneg u)) u = v := by
  ext <;> simp only [vadd, vneg] <;> ring

theorem vadd_four_cancel (p u1 u2 : Vec3) :
    vadd (vadd (vadd (vadd p u1) (vneg u2)) u2) (vneg u1) = p := by
  ext <;> simp only [vadd, vneg] <;> ring

theorem Apply_roundtrip_cancel {g : FrameGraph} {P : String} {child : Frame}
    {out1 out2 p q1 q2 : Pose} {t d : RTime}
    (hg : IdRotGraph g) (hchild : child ∈ g)
    (hu : quatNormSq p.orientation = 1) (hw : 1 / 2 < p.orientation.w)
    (h1 : CoordinateFrame.Apply g P child false out1 p t d = (.ok, q1))
    (h2 : CoordinateFrame.Apply g P child true out2 q1 t d = (.ok, q2)) :
    q2 = p := by
  obtain ⟨u, hm, hq1⟩ := Apply_ok_structure hg hchild hu hw h1
  have hu1 : quatNormSq q1.orientation = 1 := by rw [hq1]; exact hu
  have hw1 : (1 : ℚ) / 2 < q1.orientation.w := by rw [hq1]; exact hw
  obtain ⟨u', hm', hq2⟩ := Apply_ok_structure hg hchild hu1 hw1 h2
  rw [hm] at hm'
  simp only [GTMRes.ok.injEq] at hm'
  have huu : u' = u := transMat_inj hm'.symm
  rw [huu] at hq2
  rw [hq2, hq1]
  simp only [if_neg (by simp : ¬ (false = true)), if_pos rfl]
  cases p with
  | mk ppos por =>
    simp only [Pose.mk.injEq]
    exact ⟨vadd_vneg_cancel ppos u, trivial⟩

theorem Apply_roundtrip_cancel_inv {g : FrameGraph} {P : String} {child : Frame}
    {out1 out2 p q1 q2 : Pose} {t d : RTime}
    (hg : IdRotGraph g) (hchild : child ∈ g)
    (hu : quatNormSq p.orientation = 1) (hw : 1 / 2 < p.orientation.w)
    (h1 : CoordinateFrame.Apply g P child true out1 p t d = (.ok, q1))
    (h2 : CoordinateFrame.Apply g P child false out2 q1 t d = (.ok, q2)) :
    q2 = p := by
  obtain ⟨u, hm, hq1⟩ := Apply_ok_structure hg hchild hu hw h1
  have hu1 : quatNormSq q1.orientation = 1 := by rw [hq1]; exact hu
  have hw1 : (1 : ℚ) / 2 < q1.orientation.w := by rw [hq1]; exact hw
  obtain ⟨u', hm', hq2⟩ := Apply_ok_structure hg hchild hu1 hw1 h2
  rw [hm] at hm'
  simp only [GTMRes.ok.injEq] at hm'
  have huu : u' = u := transMat_inj hm'.symm
  rw [huu] at hq2
  rw [hq2, hq1]
  simp only [if_neg (by simp : ¬ (false = true)), if_pos rfl]
  cases p with
  | mk ppos por =>
    simp only [Pose.mk.injEq]
    exact ⟨vneg_vadd_cancel ppos u, trivial⟩

theorem applyCPL_ok_spec (g : FrameGraph) (dst src : Frame) (outP input : Pose)
    (t d : RTime) :
    ∀ fuel (cur : Frame) (q : Pose),
      applyCommonParentLoop g dst src outP input t d fuel cur = (.ok, q) →
      ∃ pre c k cp q1,
        cur :: chainTail g fuel cur.parent = pre ++ c :: chainTail g k c.parent ∧
        k ≤ fuel ∧
        (∀ z ∈ pre, Frame.findAncestor g dst z.id = none) ∧
        Frame.findAncestor g dst c.id = some cp ∧
        CoordinateFrame.Apply g cp.id src false outP input t d = (.ok, q1) ∧
        CoordinateFrame.Apply g cp.id dst true q1 q1 t d = (.ok, q) := by
  intro fuel
  induction fuel with
  | zero =>
    intro cur q h
    rw [applyCommonParentLoop] at h
    cases hfa : Frame.findAncestor g dst cur.id with
    | some cp =>
      simp only [hfa] at h
      cases hr1 : CoordinateFrame.Apply g cp.id src false outP input t d with
      | mk st p1 =>
        simp only [hr1] at h
        cases st with
        | ok => exact ⟨[], cur, 0, cp, p1, by simp, le_refl 0, by simp, hfa, hr1, h⟩
        | fail => simp at h
        | err => simp at h
        | spin => simp at h
    | none =>
      simp only [hfa] at h
      cases hc : cur.parent with
      | none => simp only [hc] at h; simp at h
      | some pid =>
        simp only [hc] at h
        cases hff : findFrame g pid with
        | none => simp only [hff] at h; simp at h
        | some pf => simp only [hff] at h; simp at h
  | succ n ih =>
    intro cur q h
    rw [applyCommonParentLoop] at h
    cases hfa : Frame.findAncestor g dst cur.id with
    | some cp =>
      simp only [hfa] at h
      cases hr1 : CoordinateFrame.Apply g cp.id src false outP input t d with
      | mk st p1 =>
        simp only [hr1] at h
        cases st with
        | ok => exact ⟨[], cur, n + 1, cp, p1, by simp, le_refl _, by simp, hfa, hr1, h⟩
        | fail => simp at h
        | err => simp at h
        | spin => simp at h
    | none =>
      simp only [hfa] at h
      cases hc : cur.parent with
      | none => simp only [hc] at h; simp at h
      | some pid =>
        simp only [hc] at h
        cases hff : findFrame g pid with
        | none => simp only [hff] at h; simp at h
        | some pf =>
          simp only [hff] at h
          obtain ⟨pre, c, k, cp, q1, hdec, hk, hpre, hcp, ha1, ha2⟩ := ih pf q h
          refine ⟨cur :: pre, c, k, cp, q1, ?_, by omega, ?_, hcp, ha1, ha2⟩
          · simp only [chainTail, hc, hff, List.cons_append]
            rw [hdec]
          · intro z hz
            rcases List.mem_cons.mp hz with rfl | hz'
            · exact hfa
            · exact hpre z hz'

/-- C2 (amended): the round trip composed of `frame.apply(out1, p, otherFrame)`
and `otherFrame.apply(out2, out1, frame)` recovers the input pose exactly on a
well-formed graph all of whose stored transforms are pure translations (the
regime in which the code's `[R^T, -t]` pseudo-inverse coincides with the true
rigid inverse), for any input pose whose orientation is a unit quaternion with
`w > 1/2`, whenever both calls succeed.  Outside the pure-translation regime
the round trip can fail outright (see the counterexample). -/
theorem roundtrip_amended {g : FrameGraph} {A B : Frame} {out1 out2 p q1 q2 : Pose}
    {t d : RTime}
    (hwf : WFGraph g) (hg : IdRotGraph g) (hA : A ∈ g) (hB : B ∈ g)
    (hu : quatNormSq p.orientation = 1) (hw : 1 / 2 < p.orientation.w)
    (h1 : CoordinateFrame.apply g A B out1 p t d = (.ok, q1))
    (h2 : CoordinateFrame.apply g B A out2 q1 t d = (.ok, q2)) :
    q2 = p := by
  unfold CoordinateFrame.apply at h1 h2
  by_cases hid : (B.id == A.id) = true
  · have hid2 : (A.id == B.id) = true := by
      rw [beq_iff_eq] at hid ⊢
      exact hid.symm
    rw [if_pos hid] at h1
    rw [if_pos hid2] at h2
    have hq1 : q1 = (⟨p.position, p.orientation⟩ : Pose) := (congrArg Prod.snd h1).symm
    have hq2 : q2 = (⟨q1.position, q1.orientation⟩ : Pose) := (congrArg Prod.snd h2).symm
    rw [hq2, hq1]
  · have hid2 : ¬ (A.id == B.id) = true := by
      rw [beq_iff_eq] at hid ⊢
      exact fun e => hid e.symm
    rw [if_neg hid] at h1
    rw [if_neg hid2] at h2
    by_cases ha1 : (Frame.findAncestor g B A.id).isSome = true
    · rw [if_pos ha1] at h1
      obtain ⟨f, hf⟩ := Option.isSome_iff_exists.mp ha1
      have hnone : Frame.findAncestor g A B.id = none := findAncestor_antisym hwf hA hB hf
      rw [if_neg (by rw [hnone]; simp), if_pos ha1] at h2
      exact Apply_roundtrip_cancel hg hB hu hw h1 h2
    · rw [if_neg ha1] at h1
      by_cases ha2 : (Frame.findAncestor g A B.id).isSome = true
      · rw [if_pos ha2] at h1
        rw [if_pos ha2] at h2
        exact Apply_roundtrip_cancel_inv hg hA hu hw h1 h2
      · rw [if_neg ha2] at h1
        rw [if_neg ha2, if_neg ha1] at h2
        obtain ⟨pre, c, k, cp, m1, hdec, hk, hpre, hcp, hap1, hap2⟩ :=
          applyCPL_ok_spec g A B out1 p t d (g.length + 1) B q1 h1
        obtain ⟨pre', c', k', cp', m2, hdec', hk', hpre', hcp', hap1', hap2'⟩ :=
          applyCPL_ok_spec g B A out2 q1 t d (g.length + 1) A q2 h2
        have hstabB : chainTail g (g.length + 1) B.parent = sAnc g B :=
          chainTail_stable g g.length B.parent (hwf.2.1 B hB) (g.length + 1) (by omega)
        have hstabA : chainTail g (g.length + 1) A.parent = sAnc g A :=
          chainTail_stable g g.length A.parent (hwf.2.1 A hA) (g.length + 1) (by omega)
        have hdecB : B :: sAnc g B = pre ++ c :: chainTail g k c.parent := by
          rw [← hstabB]; exact hdec
        have hdecA : A :: sAnc g A = pre' ++ c' :: chainTail g k' c'.parent := by
          rw [← hstabA]; exact hdec'
        have hcB : c ∈ B :: sAnc g B := by rw [hdecB]; simp
        have hcA' : c' ∈ A :: sAnc g A := by rw [hdecA]; simp
        have hcneB : c ∈ sAnc g B := by
          rcases List.mem_cons.mp hcB with rfl | h'
          · exact absurd (by rw [hcp]; rfl) ha2
          · exact h'
        have hcneA' : c' ∈ sAnc g A := by
          rcases List.mem_cons.mp hcA' with rfl | h'
          · exact absurd (by rw [hcp']; rfl) ha1
          · exact h'
        have hcg : c ∈ g := chainTail_mem_graph g g.length B.parent c hcneB
        have hcg' : c' ∈ g := chainTail_mem_graph g g.length A.parent c' hcneA'
        obtain ⟨hcpg, hcpid, hcpA⟩ := findAncestor_spec hwf hA hcp
        have hcpc : cp = c := frame_id_inj hwf hcpg hcg hcpid
        subst hcpc
        obtain ⟨hcpg', hcpid', hcpB'⟩ := findAncestor_spec hwf hB hcp'
        have hcpc' : cp' = c' := frame_id_inj hwf hcpg' hcg' hcpid'
        subst hcpc'
        have hsomeA : (Frame.findAncestor g A cp'.id).isSome = true :=
          findAncestor_isSome_of_mem_sAnc hwf hA hcneA'
        have hsomeB : (Frame.findAncestor g B cp.id).isSome = true :=
          findAncestor_isSome_of_mem_sAnc hwf hB hcneB
        have hcp'notpre : cp' ∉ pre := by
          intro hmem
          have hz := hpre cp' hmem
          rw [hz] at hsomeA
          exact absurd hsomeA (by simp)
        have hcpnotpre' : cp ∉ pre' := by
          intro hmem
          have hz := hpre' cp hmem
          rw [hz] at hsomeB
          exact absurd hsomeB (by simp)
        have hcp'mem : cp' ∈ pre ++ cp :: chainTail g k cp.parent := by
          rw [← hdecB]
          exact List.mem_cons_of_mem B hcpB'
        have hcpmem : cp ∈ pre' ++ cp' :: chainTail g k' cp'.parent := by
          rw [← hdecA]
          exact List.mem_cons_of_mem A hcpA
        have hsplit1 : cp' = cp ∨ (sAnc g cp').length < (sAnc g cp).length := by
          rcases List.mem_append.mp hcp'mem with hL | hR
          · exact absurd hL hcp'notpre
          · rcases List.mem_cons.mp hR with h' | h''
            · exact Or.inl h'
            · exact Or.inr (mem_sAnc_depth_lt hwf hcg (chainTail_subset_sAnc hwf hcg k h''))
        have hsplit2 : cp = cp' ∨ (sAnc g cp).length < (sAnc g cp').length := by
          rcases List.mem_append.mp hcpmem with hL | hR
          · exact absurd hL hcpnotpre'
          · rcases List.mem_cons.mp hR with h' | h''
            · exact Or.inl h'
            · exact Or.inr (mem_sAnc_depth_lt hwf hcg' (chainTail_subset_sAnc hwf hcg' k' h''))
        have hcc : cp' = cp := by
          rcases hsplit1 with h | hlt1
          · exact h
          · rcases hsplit2 with h | hlt2
            · exact h.symm
            · omega
        subst hcc
        obtain ⟨u1, hg1, e1⟩ := Apply_ok_structure hg hB hu hw hap1
        have hum1 : quatNormSq m1.orientation = 1 := by rw [e1]; exact hu
        have hwm1 : (1 : ℚ) / 2 < m1.orientation.w := by rw [e1]; exact hw
        obtain ⟨u2, hg2, e2⟩ := Apply_ok_structure hg hA hum1 hwm1 hap2
        have huq1 : quatNormSq q1.orientation = 1 := by rw [e2]; exact hum1
        have hwq1 : (1 : ℚ) / 2 < q1.orientation.w := by rw [e2]; exact hwm1
        obtain ⟨u3, hg3, e3⟩ := Apply_ok_structure hg hA huq1 hwq1 hap1'
        have hum2 : quatNormSq m2.orientation = 1 := by rw [e3]; exact huq1
        have hwm2 : (1 : ℚ) / 2 < m2.orientation.w := by rw [e3]; exact hwq1
        obtain ⟨u4, hg4, e4⟩ := Apply_ok_structure hg hB hum2 hwm2 hap2'
        rw [hg2] at hg3
        simp only [GTMRes.ok.injEq] at hg3
        have h32 : u3 = u2 := transMat_inj hg3.symm
        rw [hg1] at hg4
        simp only [GTMRes.ok.injEq] at hg4
        have h41 : u4 = u1 := transMat_inj hg4.symm
        rw [h32] at e3
        rw [h41] at e4
        rw [e4, e3, e2, e1]
        simp only [if_neg (by simp : ¬ (false = true)), if_pos rfl]
        cases p with
        | mk ppos por =>
          simp only [Pose.mk.injEq]
          exact ⟨vadd_four_cancel ppos u1 u2, trivial⟩

/-- Root frame of the round-trip witness graph. -/
def rtRoot : Frame := ⟨"root", none, [], defaultMaxStorageTime⟩

/-- Child frame of the round-trip witness graph: one pure-translation entry
`(1, 2, 3)` at time zero. -/
def rtChild : Frame := ⟨"child", some "root", [(timeZero, tfOdomBase)], defaultMaxStorageTime⟩

/-- The two-frame pure-translation graph of the round-trip witness. -/
def rtGraph : FrameGraph := [rtChild, rtRoot]

theorem roundtrip_amended_witness :
    CoordinateFrame.apply rtGraph rtRoot rtChild emptyPose emptyPose timeZero oneSecond
      = (.ok, ⟨⟨1, 2, 3⟩, quatIdentity⟩) ∧
    CoordinateFrame.apply rtGraph rtChild rtRoot emptyPose ⟨⟨1, 2, 3⟩, quatIdentity⟩
        timeZero oneSecond = (.ok, ⟨⟨0, 0, 0⟩, quatIdentity⟩) ∧
    (⟨⟨0, 0, 0⟩, quatIdentity⟩ : Pose) = emptyPose := by
  have e1 : CoordinateFrame.apply rtGraph rtRoot rtChild emptyPose emptyPose timeZero
      oneSecond = (.ok, ⟨⟨1, 2, 3⟩, quatIdentity⟩) := by
    norm_num +decide [CoordinateFrame.apply, CoordinateFrame.Apply,
      CoordinateFrame.GetTransformMatrix, gtmLoop, CoordinateFrame.Interpolate,
      Frame.findAncestor, findAncestorLoop, findFrame, List.find?,
      findClosestTransforms, isDiffWithinDelta, areEqual, timeSub, timeCompare,
      fixTime, isLessThan, rtGraph, rtChild, rtRoot, tfOdomBase, timeZero,
      oneSecond, defaultMaxStorageTime, emptyPose, vec3Zero, quatIdentity,
      Transform.setPose, Transform.create, quatNormalize, quatNormSq,
      ratSqrt_one, ratSqrt_four, Transform.matrix, fromRotationTranslation,
      mat4Multiply, mat4Identity, Transform.setMatrix, getTranslation,
      getRotationQ, getRotationScaled, Transform.toPose, rigidInvert,
      mat4Transpose]
  have e2 : CoordinateFrame.apply rtGraph rtChild rtRoot emptyPose
      ⟨⟨1, 2, 3⟩, quatIdentity⟩ timeZero oneSecond
      = (.ok, ⟨⟨0, 0, 0⟩, quatIdentity⟩) := by
    norm_num +decide [CoordinateFrame.apply, CoordinateFrame.Apply,
      CoordinateFrame.GetTransformMatrix, gtmLoop, CoordinateFrame.Interpolate,
      Frame.findAncestor, findAncestorLoop, findFrame, List.find?,
      findClosestTransforms, isDiffWithinDelta, areEqual, timeSub, timeCompare,
      fixTime, isLessThan, rtGraph, rtChild, rtRoot, tfOdomBase, timeZero,
      oneSecond, defaultMaxStorageTime, emptyPose, vec3Zero, quatIdentity,
      Transform.setPose, Transform.create, quatNormalize, quatNormSq,
      ratSqrt_one, ratSqrt_four, Transform.matrix, fromRotationTranslation,
      mat4Multiply, mat4Identity, Transform.setMatrix, getTranslation,
      getRotationQ, getRotationScaled, Transform.toPose, rigidInvert,
      mat4Transpose]
  exact ⟨e1, e2,
    roundtrip_amended ⟨by decide, by decide, by decide⟩
      (by unfold IdRotGraph; decide) (by decide) (by decide) (by norm_num [quatNormSq, emptyPose, quatIdentity])
      (by norm_num [emptyPose, quatIdentity]) e1 e2⟩
